import Mathlib

/-!
Verification of `hack/cmd/report/main.go` (registry-operator): a program that
converts a JUnit-style XML test report into a markdown summary.

The Go source is shallowly embedded below.  Pure Go functions become Lean
functions; the in-place mutation performed by `Report.Print` (it sorts the
row slice of the table it holds via `sort.Slice`) is modelled by explicit
state passing: `Print` returns both the emitted string and the mutated
report.  `sort.Slice` of the Go standard library (Go >= 1.19) is pdqsort;
it is transcribed operation by operation in the `GoSort` namespace.
Go string comparison is byte-wise lexicographic on the UTF-8 encoding,
which coincides with Lean's `String` order (code-point lexicographic),
since UTF-8 preserves code-point order.
-/

/-- Go: `const Failed = ":x: Failed"`. -/
def Failed : String := ":x: Failed"

/-- Go: `const Passed = ":white_check_mark: Passed"`. -/
def Passed : String := ":white_check_mark: Passed"

/-- Go: `type Table struct { Headers []string; Separator []string; Rows [][]string }`. -/
structure Table where
  Headers : List String
  Separator : List String
  Rows : List (List String)
deriving Repr, DecidableEq

/-- Go: `NewTable` — `Separator: make([]string, len(headers))` is a slice of
`len(headers)` empty strings. -/
def NewTable (headers : List String) : Table :=
  { Headers := headers
    Separator := List.replicate headers.length ""
    Rows := [] }

/-- Go: `Table.Add` appends `row`, but panics when `len(row) != len(t.Headers)`.
The panic is modelled by `none`. -/
def Table.Add (t : Table) (row : List String) : Option Table :=
  if row.length = t.Headers.length then
    some { t with Rows := t.Rows ++ [row] }
  else
    none

/-- Go: `type Report struct { Time, Timestamp string; Table *Table; OK bool; Failures, Passes int }`. -/
structure Report where
  Time : String
  Timestamp : String
  table : Table
  OK : Bool
  Failures : Nat
  Passes : Nat
deriving Repr, DecidableEq

/-- Go: `contains(slice []string, value string) bool` — linear scan with
`==` on each element of the slice. -/
def contains : List String → String → Bool
  | [], _ => false
  | v :: rest, value => if v == value then true else contains rest value

/-- Go: `ifElse(condition bool, trueVal, falseVal string) string`. -/
def ifElse (condition : Bool) (trueVal falseVal : String) : String :=
  if condition then trueVal else falseVal

/-- Loop body of `NewReport`: the running `(failures, passes)` pair updated by
one row, exactly as the Go `for` loop does. -/
def countRow (p : Nat × Nat) (row : List String) : Nat × Nat :=
  if contains row Failed then (p.1 + 1, p.2)
  else if contains row Passed then (p.1, p.2 + 1)
  else p

/-- Go: `NewReport(time, timestamp string, table *Table) *Report`. -/
def NewReport (time timestamp : String) (table : Table) : Report :=
  let fp := table.Rows.foldl countRow (0, 0)
  { Time := time
    Timestamp := timestamp
    table := table
    OK := fp.1 == 0
    Failures := fp.1
    Passes := fp.2 }

/-- Go: `type TestCase struct { Name string; Time string; Failure *string }`.
`Failure *string` with the `xml:"failure"` tag is nil exactly when no
`failure` element is present; only presence matters. -/
structure TestCase where
  Name : String
  Time : String
  Failure : Option String
deriving Repr, DecidableEq

/-- Go: `type TestSuite struct { XMLName xml.Name; Name string; TestCase []TestCase }`.
`XMLName` is parser metadata carrying no report content and is omitted. -/
structure TestSuite where
  Name : String
  TestCase : List TestCase
deriving Repr, DecidableEq

/-- Go: `type TestSuites struct { XMLName xml.Name; TestSuite []TestSuite; Time string; Timestamp string }`.
`XMLName` is parser metadata carrying no report content and is omitted. -/
structure TestSuites where
  TestSuite : List TestSuite
  Time : String
  Timestamp : String
deriving Repr, DecidableEq

/-- The row built for one test case in the loop body of `generateMarkdown`:
`[]string{suite.Name, testcase.Name, fmt.Sprintf("`%s`", testcase.Time), status}`
with `status := Passed; if testcase.Failure != nil { status = Failed }`. -/
def rowFor (suite : TestSuite) (tc : TestCase) : List String :=
  [suite.Name, tc.Name, "`" ++ tc.Time ++ "`", if tc.Failure.isSome then Failed else Passed]

/-- Go: the headers passed to `NewTable` in `generateMarkdown`. -/
def reportHeaders : List String := ["Test Suite", "Test Case", "Time (s)", "Status"]

/-- The table-building loop of `generateMarkdown`: starting from
`NewTable(reportHeaders)`, one `table.Add` per test case, suites in document
order, cases in document order within each suite.  `none` models a panic
inside `Table.Add`. -/
def buildTable (ts : TestSuites) : Option Table :=
  ts.TestSuite.foldl
    (fun acc suite =>
      suite.TestCase.foldl (fun acc2 tc => acc2.bind (fun t => t.Add (rowFor suite tc))) acc)
    (some (NewTable reportHeaders))

/-- The table `buildTable` produces when no `Table.Add` panics: headers,
a separator of four empty cells, and one row per case in document order. -/
def buildTableT (ts : TestSuites) : Table :=
  { Headers := reportHeaders
    Separator := List.replicate 4 ""
    Rows := ts.TestSuite.flatMap (fun s => s.TestCase.map (rowFor s)) }

/-!
`GoSort`: a transcription of Go's `sort.Slice` (standard library, Go >= 1.19),
which is pattern-defeating quicksort (`pdqsort_func` and its helpers in
`sort/zsortfunc.go`).  The element comparison of Go's `lessSwap` is modelled
by a boolean `less` on elements; index reads out of bounds (which cannot
occur in the executions the program performs) read a default element, and
out-of-bounds swaps leave the array unchanged.  Loops whose termination
measure needs invariants that only hold on the reachable states are given
explicit fuel; every call site passes fuel that is ample for its range, so
on all inputs the fuel never runs out before the Go loop would exit.
-/
namespace GoSort
variable {α : Type} [Inhabited α] (less : α → α → Bool)

/-- Element read `data[i]` of the Go slice. -/
def get (data : Array α) (i : Nat) : α := data.getD i default

/-- Go: `data.Swap(i, j)`. -/
def swap (data : Array α) (i j : Nat) : Array α :=
  if h : i < data.size ∧ j < data.size then data.swap ⟨i, h.1⟩ ⟨j, h.2⟩ else data

/-!
All loops below are written by structural recursion so that the kernel can
evaluate them: loops whose counter decreases recurse on the counter itself;
loops whose counter increases carry explicit fuel.  Every call site passes
fuel that strictly exceeds the number of iterations the Go loop can perform
on that range, so the fuel never runs out before the Go loop would exit.
-/

/-- Inner loop of Go `insertionSort_func`:
`for j := i; j > a && data.Less(j, j-1); j-- { data.Swap(j, j-1) }`. -/
def insertionInner (data : Array α) (a j : Nat) : Array α :=
  match j with
  | 0 => data
  | j' + 1 =>
    if a < j' + 1 ∧ less (get data (j' + 1)) (get data j') then
      insertionInner (swap data (j' + 1) j') a j'
    else data

/-- Outer loop of Go `insertionSort_func`: `for i := a + 1; i < b; i++`.
Runs at most `b - i` times, so fuel `b + 1` is ample. -/
def insertionOuter (data : Array α) (a i b fuel : Nat) : Array α :=
  match fuel with
  | 0 => data
  | fuel' + 1 =>
    if i < b then insertionOuter (insertionInner less data a i) a (i + 1) b fuel' else data

/-- Go: `insertionSort_func(data, a, b)` sorts `data[a:b]` by insertion sort. -/
def insertionSort (data : Array α) (a b : Nat) : Array α :=
  insertionOuter less data a (a + 1) b (b + 1)

/-- Go: loop of `siftDown_func` — restores the heap property on the heap of
size `hi` that starts at offset `first`, rooted at `root`.  The root at
least doubles each iteration, so fuel `hi + 1` is ample. -/
def siftDownLoop (data : Array α) (root hi first fuel : Nat) : Array α :=
  match fuel with
  | 0 => data
  | fuel' + 1 =>
    if 2 * root + 1 < hi then
      if 2 * root + 2 < hi ∧ less (get data (first + (2 * root + 1))) (get data (first + (2 * root + 2))) then
        if less (get data (first + root)) (get data (first + (2 * root + 2))) then
          siftDownLoop (swap data (first + root) (first + (2 * root + 2))) (2 * root + 2) hi first fuel'
        else data
      else
        if less (get data (first + root)) (get data (first + (2 * root + 1))) then
          siftDownLoop (swap data (first + root) (first + (2 * root + 1))) (2 * root + 1) hi first fuel'
        else data
    else data

/-- First loop of Go `heapSort_func` (build heap): `for i := (hi-1)/2; i >= 0; i--`.
`i1` is `i + 1`, so the loop body runs for `i = i1 - 1` down to `0`. -/
def heapBuild (data : Array α) (i1 hi first : Nat) : Array α :=
  match i1 with
  | 0 => data
  | i + 1 => heapBuild (siftDownLoop less data i hi first (hi + 1)) i hi first

/-- Second loop of Go `heapSort_func` (pop elements):
`for i := hi - 1; i >= 0; i-- { data.Swap(first, first+i); siftDown(data, lo, i, first) }`
with `lo = 0`. -/
def heapPop (data : Array α) (i1 first : Nat) : Array α :=
  match i1 with
  | 0 => data
  | i + 1 => heapPop (siftDownLoop less (swap data first (first + i)) 0 i first (i + 1)) i first

/-- Go: `heapSort_func(data, a, b)`.  In Go the first loop starts at
`i = (hi-1)/2` where `(0-1)/2 = 0` by int division, matching `(hi-1)/2` on `Nat`. -/
def heapSort (data : Array α) (a b : Nat) : Array α :=
  let hi := b - a
  heapPop less (heapBuild less data ((hi - 1) / 2 + 1) hi a) hi a

/-- Go: `reverseRange_func(data, a, b)`: `i, j := a, b-1; for i < j { Swap(i, j); i++; j-- }`.
Fuel `b` is ample. -/
def reverseRangeLoop (data : Array α) (i j fuel : Nat) : Array α :=
  match fuel with
  | 0 => data
  | fuel' + 1 =>
    if i < j then reverseRangeLoop (swap data i j) (i + 1) (j - 1) fuel' else data

/-- Go: `reverseRange_func(data, a, b)`. -/
def reverseRange (data : Array α) (a b : Nat) : Array α :=
  reverseRangeLoop data a (b - 1) b

/-- Go: `xorshift.Next` on a `uint64` state:
`*r ^= *r << 13; *r ^= *r >> 17; *r ^= *r << 5; return uint64(*r)`. -/
def xorshiftNext (r : Nat) : Nat :=
  let r1 := (r ^^^ (r <<< 13)) % 2 ^ 64
  let r2 := r1 ^^^ (r1 >>> 17)
  (r2 ^^^ (r2 <<< 5)) % 2 ^ 64

/-- Halving recursion computing the number of binary digits; `fuel ≥ n`
suffices since a number halves to `0` within its bit count. -/
def bitsLenAux (fuel n : Nat) : Nat :=
  match fuel, n with
  | _, 0 => 0
  | 0, _ => 0
  | fuel' + 1, n => bitsLenAux fuel' (n / 2) + 1

/-- Go: `bits.Len(uint(n))` — the number of bits required to represent `n`. -/
def goBitsLen (n : Nat) : Nat := bitsLenAux n n

/-- Go: `nextPowerOfTwo(length) = 1 << bits.Len(uint(length))`. -/
def nextPowerOfTwo (length : Nat) : Nat := 1 <<< goBitsLen length

/-- Loop of Go `breakPatterns_func`: three swaps driven by the xorshift
generator; `rand` is the generator state, `i` the loop counter and `rem`
the remaining iterations (`i + rem = 3`). -/
def breakLoop (data : Array α) (a length modulus idx rand i rem : Nat) : Array α :=
  match rem with
  | 0 => data
  | rem' + 1 =>
    let v := xorshiftNext rand
    let other := v &&& (modulus - 1)
    let other := if other ≥ length then other - length else other
    breakLoop (swap data (idx - 1 + i) (a + other)) a length modulus idx v (i + 1) rem'

/-- Go: `breakPatterns_func(data, a, b)` — scatters some elements when the
range has at least 8 elements; the xorshift generator is seeded with the
range length (a `uint64`). -/
def breakPatterns (data : Array α) (a b : Nat) : Array α :=
  let length := b - a
  if length ≥ 8 then
    breakLoop data a length (nextPowerOfTwo length) (a + length / 4 * 2 - 1) (length % 2 ^ 64) 0 3
  else data

/-- Go: `sortedHint` (`increasingHint`, `decreasingHint`, `unknownHint`). -/
inductive Hint where
  | increasing
  | decreasing
  | unknown
deriving Repr, DecidableEq

/-- Go: `order2_func(data, a, b, &swaps)` — returns the two indices in
increasing element order and bumps the swap counter when it reorders them. -/
def order2 (data : Array α) (a b swaps : Nat) : Nat × Nat × Nat :=
  if less (get data b) (get data a) then (b, a, swaps + 1) else (a, b, swaps)

/-- Go: `median_func(data, a, b, c, &swaps)` — index of the median element. -/
def median (data : Array α) (a b c swaps : Nat) : Nat × Nat :=
  let r1 := order2 less data a b swaps
  let r2 := order2 less data r1.2.1 c r1.2.2
  let r3 := order2 less data r1.1 r2.1 r2.2.2
  (r3.2.1, r3.2.2)

/-- Go: `medianAdjacent_func(data, a, &swaps) = median(a-1, a, a+1)`. -/
def medianAdjacent (data : Array α) (a swaps : Nat) : Nat × Nat :=
  median less data (a - 1) a (a + 1) swaps

/-- The `switch swaps` at the end of Go `choosePivot_func` (`maxSwaps = 12`). -/
def mkHint (pivot swaps : Nat) : Nat × Hint :=
  if swaps = 0 then (pivot, Hint.increasing)
  else if swaps = 12 then (pivot, Hint.decreasing)
  else (pivot, Hint.unknown)

/-- Go: `choosePivot_func(data, a, b)`.  Ranges of fewer than 8 elements get a
static pivot, `[8, 50)` the median of three, `[50, ∞)` the Tukey ninther. -/
def choosePivot (data : Array α) (a b : Nat) : Nat × Hint :=
  let l := b - a
  let i := a + l / 4 * 1
  let j := a + l / 4 * 2
  let k := a + l / 4 * 3
  if l ≥ 8 then
    if l ≥ 50 then
      let r1 := medianAdjacent less data i 0
      let r2 := medianAdjacent less data j r1.2
      let r3 := medianAdjacent less data k r2.2
      let r4 := median less data r1.1 r2.1 r3.1 r3.2
      mkHint r4.1 r4.2
    else
      let r := median less data i j k 0
      mkHint r.1 r.2
  else (j, Hint.increasing)

/-- Scan of Go `partialInsertionSort_func`:
`for i < b && !data.Less(i, i-1) { i++ }` — returns the final `i`.
Fuel `b + 1` is ample. -/
def scanSorted (data : Array α) (i b fuel : Nat) : Nat :=
  match fuel with
  | 0 => i
  | fuel' + 1 =>
    if i < b ∧ ¬ less (get data i) (get data (i - 1)) then scanSorted data (i + 1) b fuel' else i

/-- Left shift of Go `partialInsertionSort_func`:
`for j := i - 1; j >= 1; j-- { if !data.Less(j, j-1) { break }; data.Swap(j, j-1) }`. -/
def shiftLeftLoop (data : Array α) (j : Nat) : Array α :=
  match j with
  | 0 => data
  | j' + 1 =>
    if less (get data (j' + 1)) (get data j') then
      shiftLeftLoop (swap data (j' + 1) j') j'
    else data

/-- Right shift of Go `partialInsertionSort_func`:
`for j := i + 1; j < b; j++ { if !data.Less(j, j-1) { break }; data.Swap(j, j-1) }`.
Fuel `b + 1` is ample. -/
def shiftRightLoop (data : Array α) (j b fuel : Nat) : Array α :=
  match fuel with
  | 0 => data
  | fuel' + 1 =>
    if j < b ∧ less (get data j) (get data (j - 1)) then
      shiftRightLoop (swap data j (j - 1)) (j + 1) b fuel'
    else data

/-- Outer loop of Go `partialInsertionSort_func` (`maxSteps = 5`,
`shortestShifting = 50`); `steps` counts the remaining steps, `i` persists
across steps.  Returns the data and the boolean result. -/
def partInsLoop (data : Array α) (a b i steps : Nat) : Array α × Bool :=
  match steps with
  | 0 => (data, false)
  | steps' + 1 =>
    let i' := scanSorted less data i b (b + 1)
    if i' = b then (data, true)
    else if b - a < 50 then (data, false)
    else
      let data1 := swap data i' (i' - 1)
      let data2 := if i' - a ≥ 2 then shiftLeftLoop less data1 (i' - 1) else data1
      let data3 := if b - i' ≥ 2 then shiftRightLoop less data2 (i' + 1) b (b + 1) else data2
      partInsLoop data3 a b i' steps'

/-- Go: `partialInsertionSort_func(data, a, b)` — partially sorts, returning
`true` exactly when the range is sorted at the end. -/
def partInsertionSort (data : Array α) (a b : Nat) : Array α × Bool :=
  partInsLoop less data a b (a + 1) 5

/-- Go `partition_func` scan: `for i <= j && data.Less(i, a) { i++ }`.
Fuel `j + 2` is ample. -/
def partScanI (data : Array α) (a i j fuel : Nat) : Nat :=
  match fuel with
  | 0 => i
  | fuel' + 1 =>
    if i ≤ j ∧ less (get data i) (get data a) then partScanI data a (i + 1) j fuel' else i

/-- Go `partition_func` scan: `for i <= j && !data.Less(j, a) { j-- }`.
Fuel `j + 1` is ample (in Go, `j` only ever moves down to `i - 1 ≥ a ≥ 0`
on the states `partition_func` reaches). -/
def partScanJ (data : Array α) (a i j fuel : Nat) : Nat :=
  match fuel with
  | 0 => j
  | fuel' + 1 =>
    if i ≤ j ∧ ¬ less (get data j) (get data a) then partScanJ data a i (j - 1) fuel' else j

/-- Main loop of Go `partition_func` after the first crossing swap; returns
the data and the final `j`.  Each iteration strictly shrinks `j - i`, so
fuel `b` is ample. -/
def partLoop (data : Array α) (a i j fuel : Nat) : Array α × Nat :=
  match fuel with
  | 0 => (data, j)
  | fuel' + 1 =>
    let i1 := partScanI less data a i j (j + 2)
    let j1 := partScanJ less data a i1 j (j + 1)
    if i1 > j1 then (data, j1)
    else partLoop (swap data i1 j1) a (i1 + 1) (j1 - 1) fuel'

/-- Go: `partition_func(data, a, b, pivot)` — returns
`(data, newpivot, alreadyPartitioned)`. -/
def partitionGo (data : Array α) (a b pivot : Nat) : Array α × Nat × Bool :=
  let data := swap data a pivot
  let i := a + 1
  let j := b - 1
  let i1 := partScanI less data a i j (j + 2)
  let j1 := partScanJ less data a i1 j (j + 1)
  if i1 > j1 then
    (swap data j1 a, j1, true)
  else
    let data1 := swap data i1 j1
    let r := partLoop less data1 a (i1 + 1) (j1 - 1) b
    (swap r.1 r.2 a, r.2, false)

/-- Go `partitionEqual_func` scan: `for i <= j && !data.Less(a, i) { i++ }`.
Fuel `j + 2` is ample. -/
def partEqScanI (data : Array α) (a i j fuel : Nat) : Nat :=
  match fuel with
  | 0 => i
  | fuel' + 1 =>
    if i ≤ j ∧ ¬ less (get data a) (get data i) then partEqScanI data a (i + 1) j fuel' else i

/-- Go `partitionEqual_func` scan: `for i <= j && data.Less(a, j) { j-- }`.
Fuel-based like `partScanJ`. -/
def partEqScanJ (data : Array α) (a i j fuel : Nat) : Nat :=
  match fuel with
  | 0 => j
  | fuel' + 1 =>
    if i ≤ j ∧ less (get data a) (get data j) then partEqScanJ data a i (j - 1) fuel' else j

/-- Loop of Go `partitionEqual_func`; returns the data and the final `i`.
Fuel `b` is ample. -/
def partEqLoop (data : Array α) (a i j fuel : Nat) : Array α × Nat :=
  match fuel with
  | 0 => (data, i)
  | fuel' + 1 =>
    let i1 := partEqScanI less data a i j (j + 2)
    let j1 := partEqScanJ less data a i1 j (j + 1)
    if i1 > j1 then (data, i1)
    else partEqLoop (swap data i1 j1) a (i1 + 1) (j1 - 1) fuel'

/-- Go: `partitionEqual_func(data, a, b, pivot)` — returns `(data, newpivot)`. -/
def partitionEqual (data : Array α) (a b pivot : Nat) : Array α × Nat :=
  let data := swap data a pivot
  partEqLoop less data a (a + 1) (b - 1) b

/-- Go: the tail of one iteration of the `pdqsort_func` loop, from the
common-elements check (`a > 0 && !data.Less(a-1, pivot)`) through
partitioning, the recursive call on the shorter side and the loop
continuation on the longer side.  `go d a' b' limit' wb wp` stands for the
rest of the computation — either a recursive `pdqsort_func` call (whose
local state starts freshly `true`) or re-entering the loop with the updated
`wasBalanced`/`wasPartitioned` and the narrowed bounds. -/
def pdqsortCont (go : Array α → Nat → Nat → Nat → Bool → Bool → Array α)
    (a b limit pivot : Nat) (wasBalanced wasPartitioned : Bool) (data : Array α) : Array α :=
  if a > 0 ∧ ¬ less (get data (a - 1)) (get data pivot) then
    let dm := partitionEqual less data a b pivot
    go dm.1 dm.2 b limit wasBalanced wasPartitioned
  else
    let dmp := partitionGo less data a b pivot
    let mid := dmp.2.1
    let wasPartitioned1 := dmp.2.2
    let leftLen := mid - a
    let rightLen := b - mid
    let balanceThreshold := (b - a) / 8
    let wasBalanced1 := decide (min leftLen rightLen ≥ balanceThreshold)
    if leftLen < rightLen then
      go (go dmp.1 a mid limit true true) (mid + 1) b limit wasBalanced1 wasPartitioned1
    else
      go (go dmp.1 (mid + 1) b limit true true) a mid limit wasBalanced1 wasPartitioned1

/-- Go: the `for` loop of `pdqsort_func(data, a, b, limit)`, with its local
state `wasBalanced`, `wasPartitioned`.  One unit of fuel per loop iteration
or recursive call; every iteration strictly shrinks `b - a`, so fuel
`b - a + 1` is ample. -/
def pdqsortLoop (data : Array α) (a b limit : Nat)
    (wasBalanced wasPartitioned : Bool) (fuel : Nat) : Array α :=
  match fuel with
  | 0 => data
  | fuel' + 1 =>
    if b - a ≤ 12 then insertionSort less data a b
    else if limit = 0 then heapSort less data a b
    else
      let dl := if wasBalanced then (data, limit) else (breakPatterns data a b, limit - 1)
      let ph := choosePivot less dl.1 a b
      let dph :=
        if ph.2 = Hint.decreasing then
          (reverseRange dl.1 a b, (b - 1) - (ph.1 - a), Hint.increasing)
        else (dl.1, ph.1, ph.2)
      if wasBalanced ∧ wasPartitioned ∧ dph.2.2 = Hint.increasing then
        let pr := partInsertionSort less dph.1 a b
        if pr.2 then pr.1
        else
          pdqsortCont less (fun d a' b' l' wb wp => pdqsortLoop d a' b' l' wb wp fuel')
            a b dl.2 dph.2.1 wasBalanced wasPartitioned pr.1
      else
        pdqsortCont less (fun d a' b' l' wb wp => pdqsortLoop d a' b' l' wb wp fuel')
          a b dl.2 dph.2.1 wasBalanced wasPartitioned dph.1


/-- Go: `pdqsort_func(data, a, b, limit)` with ample fuel. -/
def pdqsort (data : Array α) (a b limit : Nat) : Array α :=
  pdqsortLoop less data a b limit true true (b - a + 1)

/-- Go: `sort.Slice(x, less)`: `limit := bits.Len(uint(length))` then
`pdqsort_func(lessSwap, 0, length, limit)`. -/
def sortSlice (data : Array α) : Array α :=
  pdqsort less data 0 data.size (goBitsLen data.size)

/-- The sortedness observation used to specify the sort: within `[a, b)`, no
element is strictly before its predecessor — Go's documented postcondition
for `sort.Slice` restricted to adjacent positions. -/
def sortedRange (data : Array α) (a b : Nat) : Prop :=
  ∀ k, a ≤ k → k + 1 < b → less (get data (k + 1)) (get data k) = false

end GoSort

/-- The last field `row[len(row)-1]` of a row, as read by the sort comparator
in `Report.Print`.  Go panics on an empty row; the model reads `""` there —
theorems about `Print` that depend on this access carry a nonemptiness
hypothesis so that they only speak about executions Go completes. -/
def lastField (row : List String) : String := row.getD (row.length - 1) ""

/-- Lexicographic comparison of code-point sequences.  A proper non-empty
suffix relationship makes the shorter string smaller, otherwise the first
differing code point decides. -/
def charListLt : List Char → List Char → Bool
  | [], [] => false
  | [], _ :: _ => true
  | _ :: _, [] => false
  | a :: as, b :: bs =>
    if a.toNat < b.toNat then true
    else if b.toNat < a.toNat then false
    else charListLt as bs

/-- Go string `<`: byte-wise lexicographic comparison of the UTF-8 encodings,
which equals code-point lexicographic comparison because UTF-8 preserves
code-point order. -/
def goStringLt (a b : String) : Bool := charListLt a.data b.data

/-- Go string `>`. -/
def goStringGt (a b : String) : Bool := goStringLt b a

/-- The comparator closure passed to `sort.Slice` in `Report.Print`:
`r.Table.Rows[i][len(r.Table.Rows[i])-1] > r.Table.Rows[j][len(r.Table.Rows[j])-1]`. -/
def rowLess (r1 r2 : List String) : Bool := goStringGt (lastField r1) (lastField r2)

/-- Go: `(r *Report) Print(w io.Writer)`.  The writes to `w` are returned as
one string (first component); the in-place `sort.Slice` on `r.Table.Rows` is
returned as the mutated report (second component).  The text is emitted in
source order: heading, started-at line, badge, header row, separator row,
then the data rows, which are sorted before being written. -/
def Report.Print (r : Report) : String × Report :=
  let line1 := "## E2E report " ++ ifElse r.OK Passed Failed ++ "\n"
  let line2 := "Started at `" ++ r.Timestamp ++ "` took `" ++ r.Time ++ "`\n\n"
  let badge := "![](https://img.shields.io/badge/tests-" ++ toString r.Passes ++
    "_passed%2C_" ++ toString r.Failures ++ "_failed-" ++ ifElse r.OK "green" "red" ++ ")\n\n"
  let headerLine := String.intercalate "|" r.table.Headers ++ "\n"
  let sepLine := String.intercalate "|" r.table.Separator ++ "\n"
  let sortedRows := (GoSort.sortSlice rowLess r.table.Rows.toArray).toList
  let rowLines := String.join (sortedRows.map (fun row => String.intercalate "|" row ++ "\n"))
  (line1 ++ line2 ++ badge ++ headerLine ++ sepLine ++ rowLines,
   { r with table := { r.table with Rows := sortedRows } })

/-- Outcomes of the three fallible input steps of `generateMarkdown`
(`os.Open`, `io.ReadAll`, `xml.Unmarshal`), modelled as oracles: these calls
are the operating system and the Go standard library, external to the
repository.  `openErr`/`readErr` are `some e` when the corresponding call
fails with error text `e`; `parseOutcome` is the result of `xml.Unmarshal`
on the bytes that were read — `Except.error e` when the bytes are not
well-formed XML of the expected shape (`e` the parse error's text), or
`Except.ok ts` giving the decoded `TestSuites`. -/
structure InputOutcome where
  openErr : Option String
  readErr : Option String
  parseOutcome : Except String TestSuites
deriving Repr

/-- Go: `generateMarkdown(reportPath, writer)`.  The first component of a
`some` result is everything written to `writer`; the second is `Except.ok ()`
for a `nil` return and `Except.error e` for an error return with text `e`
(`fmt.Errorf` wrapping is string concatenation of the message and the
cause's text).  `none` models a panic from `Table.Add`.  The deferred
`xmlFile.Close()` releases a resource and performs no writes, so it has no
observable effect in this model. -/
def generateMarkdown (io' : InputOutcome) : Option (String × Except String Unit) :=
  match io'.openErr with
  | some e => some ("", Except.error ("failed to open report file: " ++ e))
  | none =>
    match io'.readErr with
    | some e => some ("", Except.error ("failed to read report file: " ++ e))
    | none =>
      match io'.parseOutcome with
      | Except.error e => some ("", Except.error ("failed to unmarshal XML: " ++ e))
      | Except.ok ts =>
        match buildTable ts with
        | none => none
        | some table =>
          some (((NewReport ts.Time ts.Timestamp table).Print).1, Except.ok ())

/-- Go: the tail of `main` after the writer has been chosen: run
`generateMarkdown`; on error, write the failure notice
(`## Report generation failed :skull:` heading plus a fenced ```log block
with the error text) to the same writer and exit 1, otherwise exit 0.
Result: `some (everything written to the sink, exit code)`; `none` models a
panic. -/
def mainModel (io' : InputOutcome) : Option (String × Nat) :=
  match generateMarkdown io' with
  | none => none
  | some (w, Except.ok _) => some (w, 0)
  | some (w, Except.error e) =>
    some (w ++ "## Report generation failed :skull:\n\n" ++ "```log\n" ++ e ++ "\n```\n", 1)

/-! ### Concrete inputs used by witnesses and counterexamples -/

/-- A table whose single row carries the fail-label in its first field (the
suite-name column) while its status (last) field is the pass-label; such a
table is built by `generateMarkdown` for a passing case inside a suite
literally named `:x: Failed`. -/
def mixedLabelTable : Table :=
  { Headers := reportHeaders, Separator := List.replicate 4 "", Rows := [[Failed, "boot", "`0.5`", Passed]] }

/-- A passing test case named `a`. -/
def caseA : TestCase := { Name := "a", Time := "1", Failure := none }

/-- A failing test case named `b`. -/
def caseB : TestCase := { Name := "b", Time := "2", Failure := some "x" }

/-- A document with one suite holding one passing case then one failing case. -/
def docTwo : TestSuites :=
  { TestSuite := [{ Name := "s", TestCase := [caseA, caseB] }], Time := "1", Timestamp := "t" }

/-- A passing test case named `c<i>`. -/
def passCase (i : Nat) : TestCase := { Name := "c" ++ toString i, Time := "1", Failure := none }

/-- A failing test case named `c12`. -/
def failCase : TestCase := { Name := "c12", Time := "1", Failure := some "boom" }

/-- A document with one suite of thirteen cases: `c0` … `c11` passing in
order, then `c12` failing.  Thirteen rows exceed the insertion-sort cutoff
(12) of Go's pdqsort, so `sort.Slice` takes the partitioning path here. -/
def docThirteen : TestSuites :=
  { TestSuite := [{ Name := "s", TestCase := (List.range 12).map passCase ++ [failCase] }]
    Time := "9.9"
    Timestamp := "2024" }

/-- A document with no suites at all. -/
def docEmpty : TestSuites := { TestSuite := [], Time := "0", Timestamp := "z" }

/-- An input outcome where open and read succeed but the bytes are not
well-formed XML. -/
def outcomeParseFail : InputOutcome :=
  { openErr := none, readErr := none, parseOutcome := Except.error "unexpected EOF" }

/-- An input outcome where `os.Open` already fails. -/
def outcomeOpenFail : InputOutcome :=
  { openErr := some "no such file", readErr := none, parseOutcome := Except.error "never reached" }

/-! ### Helper lemmas -/

/-- `contains` is exact whole-string equality against any field of the row. -/
theorem contains_iff (row : List String) (v : String) : contains row v = true ↔ v ∈ row := by
  induction row with
  | nil => simp [contains]
  | cons x xs ih =>
    by_cases h : x = v
    · simp [contains, h]
    · have h' : ¬ v = x := fun he => h he.symm
      simp [contains, h, h', ih]

/-- The counting loop of `NewReport`, run from any accumulator. -/
theorem foldl_countRow (rows : List (List String)) (f p : Nat) :
    rows.foldl countRow (f, p) =
      (f + rows.countP (fun row => contains row Failed),
       p + rows.countP (fun row => !contains row Failed && contains row Passed)) := by
  induction rows generalizing f p with
  | nil => simp
  | cons r rs ih =>
    simp only [List.foldl_cons, List.countP_cons, countRow]
    by_cases h1 : contains r Failed = true
    · rw [if_pos h1, ih]
      simp [h1, Prod.ext_iff]
      omega
    · rw [if_neg h1]
      by_cases h2 : contains r Passed = true
      · rw [if_pos h2, ih]
        simp [h1, h2, Prod.ext_iff]
        omega
      · rw [if_neg h2, ih]
        simp [h1, h2]

/-- `Failures` of a report built by `NewReport`, as a row count. -/
theorem newReport_failures (time timestamp : String) (tbl : Table) :
    (NewReport time timestamp tbl).Failures = tbl.Rows.countP (fun row => contains row Failed) := by
  change (tbl.Rows.foldl countRow (0, 0)).1 = _
  rw [foldl_countRow]
  simp

/-- `Passes` of a report built by `NewReport`, as a row count. -/
theorem newReport_passes (time timestamp : String) (tbl : Table) :
    (NewReport time timestamp tbl).Passes =
      tbl.Rows.countP (fun row => !contains row Failed && contains row Passed) := by
  change (tbl.Rows.foldl countRow (0, 0)).2 = _
  rw [foldl_countRow]
  simp

/-- Folding the case loop of `generateMarkdown` from a table with the right
header count never panics and appends one row per case. -/
theorem foldl_addCases (suite : TestSuite) (cs : List TestCase) (t : Table)
    (h : t.Headers.length = 4) :
    cs.foldl (fun acc tc => acc.bind (fun t' => t'.Add (rowFor suite tc))) (some t) =
      some { t with Rows := t.Rows ++ cs.map (rowFor suite) } := by
  induction cs generalizing t with
  | nil => simp
  | cons c cs ih =>
    have hrow : (rowFor suite c).length = t.Headers.length := by simp [rowFor, h]
    have step : ((some t).bind fun t' => t'.Add (rowFor suite c)) =
        some { t with Rows := t.Rows ++ [rowFor suite c] } := by
      simp [Table.Add, hrow]
    simp only [List.foldl_cons]
    rw [step, ih _ (by simpa using h)]
    simp

/-- Folding the suite loop of `generateMarkdown` from a table with the right
header count never panics and appends all case rows in document order. -/
theorem foldl_addSuites (ss : List TestSuite) (t : Table) (h : t.Headers.length = 4) :
    ss.foldl
        (fun acc suite =>
          suite.TestCase.foldl (fun acc2 tc => acc2.bind (fun t' => t'.Add (rowFor suite tc))) acc)
        (some t) =
      some { t with Rows := t.Rows ++ ss.flatMap (fun s => s.TestCase.map (rowFor s)) } := by
  induction ss generalizing t with
  | nil => simp
  | cons s ss ih =>
    simp only [List.foldl_cons]
    rw [foldl_addCases s _ t h, ih _ (by simpa using h)]
    simp

/-- The table-building loop of `generateMarkdown` never hits the `Table.Add`
panic and produces exactly `buildTableT`. -/
theorem buildTable_eq (ts : TestSuites) : buildTable ts = some (buildTableT ts) := by
  unfold buildTable
  rw [foldl_addSuites _ _ (by simp [NewTable, reportHeaders])]
  simp [NewTable, reportHeaders, buildTableT]

/-- One row per test case. -/
theorem buildTableT_rows_length (ts : TestSuites) :
    (buildTableT ts).Rows.length = (ts.TestSuite.map (fun s => s.TestCase.length)).sum := by
  simp [buildTableT, List.length_flatMap, Function.comp_def]

/-! ### Claim theorems -/

/-- C1, counterexample: in the table `mixedLabelTable` no row has the
fail-label as its last (status) field — the single row's status is the
pass-label — yet `NewReport` counts it as failing and not as passing,
because `contains` matches the fail-label in the first field.  This refutes
the claim that `failingCount`/`passingCount` compare only the last field. -/
theorem newReport_counts_not_last_field_only :
    lastField (mixedLabelTable.Rows.getD 0 []) = Passed ∧
    mixedLabelTable.Rows.countP (fun row => lastField row == Failed) = 0 ∧
    mixedLabelTable.Rows.countP (fun row => lastField row == Passed) = 1 ∧
    (NewReport "" "" mixedLabelTable).Failures = 1 ∧
    (NewReport "" "" mixedLabelTable).Passes = 0 := by decide

/-- C1, amended: `failingCount` is the number of rows containing the
fail-label in **some** field (exact whole-string equality, any field, not
only the status field); `passingCount` is the number of rows containing no
fail-label field but some pass-label field. -/
theorem newReport_counts_by_contains_any_field (time timestamp : String) (tbl : Table) :
    (NewReport time timestamp tbl).Failures = tbl.Rows.countP (fun row => contains row Failed) ∧
    (NewReport time timestamp tbl).Passes =
      tbl.Rows.countP (fun row => !contains row Failed && contains row Passed) ∧
    ∀ row v, contains row v = true ↔ v ∈ row :=
  ⟨newReport_failures time timestamp tbl, newReport_passes time timestamp tbl, contains_iff⟩

/-- C5: the aggregator emits exactly one row per test case — `buildTable`
succeeds and the row count of the built table is the total case count summed
across all suites. -/
theorem summary_row_count_eq_total_cases (ts : TestSuites) :
    buildTable ts = some (buildTableT ts) ∧
    (buildTableT ts).Rows.length = (ts.TestSuite.map (fun s => s.TestCase.length)).sum :=
  ⟨buildTable_eq ts, buildTableT_rows_length ts⟩

/-- C6: a row's status (last) field is the fail-label iff the case carries a
failure marker, and it is the pass-label otherwise; it does not depend on
the case's name or time. -/
theorem row_status_iff_failure_marker (s : TestSuite) (tc : TestCase) :
    lastField (rowFor s tc) = (if tc.Failure.isSome then Failed else Passed) ∧
    (lastField (rowFor s tc) = Failed ↔ tc.Failure.isSome = true) ∧
    (∀ n t, lastField (rowFor s { tc with Name := n, Time := t }) = lastField (rowFor s tc)) := by
  refine ⟨by simp [rowFor, lastField], ?_, by simp [rowFor, lastField]⟩
  cases h : tc.Failure.isSome
  · simp only [rowFor, lastField, h]
    norm_num
    decide
  · simp [rowFor, lastField, h]

/-- C7: `OK` of a report built by `NewReport` is true iff its `Failures`
count is zero; a document with zero test cases yields zero failures and an
overall success. -/
theorem overall_success_iff_no_failures :
    (∀ time timestamp tbl,
      ((NewReport time timestamp tbl).OK = true ↔ (NewReport time timestamp tbl).Failures = 0)) ∧
    (∀ doc : TestSuites, (doc.TestSuite.map (fun s => s.TestCase.length)).sum = 0 →
      (NewReport doc.Time doc.Timestamp (buildTableT doc)).Failures = 0 ∧
      (NewReport doc.Time doc.Timestamp (buildTableT doc)).OK = true) := by
  constructor
  · intro time timestamp tbl
    simp [NewReport]
  · intro doc h
    have hrows : (buildTableT doc).Rows = [] := by
      rw [← List.length_eq_zero, buildTableT_rows_length, h]
    constructor <;> simp [NewReport, hrows]

/-- C7, witness: the equivalence and the zero-case consequence at the
concrete empty document. -/
theorem overall_success_iff_no_failures_witness :
    ((NewReport "0" "z" (buildTableT docEmpty)).OK = true ↔
      (NewReport "0" "z" (buildTableT docEmpty)).Failures = 0) ∧
    ((NewReport docEmpty.Time docEmpty.Timestamp (buildTableT docEmpty)).Failures = 0 ∧
      (NewReport docEmpty.Time docEmpty.Timestamp (buildTableT docEmpty)).OK = true) :=
  ⟨overall_success_iff_no_failures.1 "0" "z" (buildTableT docEmpty),
   overall_success_iff_no_failures.2 docEmpty (by decide)⟩

/-- C8: when open and read succeed but the bytes are not well-formed XML of
the expected shape, `generateMarkdown` fails with an error that wraps the
parse cause, nothing is written by `generateMarkdown` itself, and `main`
writes the markdown failure block — the heading plus a fenced log block
containing the wrapped error text — to the chosen sink and exits `1`. -/
theorem malformed_input_failure_block_and_exit (io' : InputOutcome) (cause : String)
    (h1 : io'.openErr = none) (h2 : io'.readErr = none)
    (h3 : io'.parseOutcome = Except.error cause) :
    generateMarkdown io' = some ("", Except.error ("failed to unmarshal XML: " ++ cause)) ∧
    mainModel io' = some ("## Report generation failed :skull:\n\n" ++
      ("```log\n" ++ ("failed to unmarshal XML: " ++ cause ++ "\n```\n")), 1) := by
  have hg : generateMarkdown io' =
      some ("", Except.error ("failed to unmarshal XML: " ++ cause)) := by
    unfold generateMarkdown
    rw [h1, h2, h3]
  refine ⟨hg, ?_⟩
  unfold mainModel
  rw [hg]
  simp only [String.empty_append, String.append_assoc]

/-- C8, witness: the failure block and exit code at a concrete malformed
input. -/
theorem malformed_input_failure_block_and_exit_witness :
    generateMarkdown outcomeParseFail =
      some ("", Except.error ("failed to unmarshal XML: " ++ "unexpected EOF")) ∧
    mainModel outcomeParseFail = some ("## Report generation failed :skull:\n\n" ++
      ("```log\n" ++ ("failed to unmarshal XML: " ++ "unexpected EOF" ++ "\n```\n")), 1) :=
  malformed_input_failure_block_and_exit outcomeParseFail "unexpected EOF" rfl rfl rfl

/-- C9: on any failing open, read, or parse, `generateMarkdown` has written
nothing when it returns its error, so the only bytes the sink receives in
such a run are the error-path failure notice that `main` appends. -/
theorem no_partial_output_on_input_failure (io' : InputOutcome)
    (h : io'.openErr ≠ none ∨ io'.readErr ≠ none ∨ ∃ e, io'.parseOutcome = Except.error e) :
    ∃ msg, generateMarkdown io' = some ("", Except.error msg) ∧
      mainModel io' =
        some ("" ++ "## Report generation failed :skull:\n\n" ++ "```log\n" ++ msg ++ "\n```\n", 1) := by
  obtain ⟨oe, re, po⟩ := io'
  cases oe with
  | some e =>
    exact ⟨"failed to open report file: " ++ e, rfl, rfl⟩
  | none =>
    cases re with
    | some e =>
      exact ⟨"failed to read report file: " ++ e, rfl, rfl⟩
    | none =>
      cases po with
      | error e =>
        exact ⟨"failed to unmarshal XML: " ++ e, rfl, rfl⟩
      | ok ts =>
        rcases h with h | h | ⟨e, he⟩
        · exact absurd rfl h
        · exact absurd rfl h
        · exact absurd he (by simp)

/-- C9, witness: the empty-output error result at a concrete failing open. -/
theorem no_partial_output_on_input_failure_witness :
    ∃ msg, generateMarkdown outcomeOpenFail = some ("", Except.error msg) ∧
      mainModel outcomeOpenFail =
        some ("" ++ "## Report generation failed :skull:\n\n" ++ "```log\n" ++ msg ++ "\n```\n", 1) :=
  no_partial_output_on_input_failure outcomeOpenFail (Or.inl (by decide))

/-- C10: `Table.Add` rejects (in Go: panics on) exactly the rows whose length
differs from the header count; every table built by `generateMarkdown` has
four headers and only rows of length four, so the panic branch is
unreachable there and every row is nonempty, which keeps the sort
comparator's access to `row[len(row)-1]` in bounds. -/
theorem table_add_panic_unreachable (ts : TestSuites) :
    (∀ (t : Table) (row : List String), t.Add row = none ↔ row.length ≠ t.Headers.length) ∧
    buildTable ts = some (buildTableT ts) ∧
    (buildTableT ts).Headers.length = 4 ∧
    (∀ row ∈ (buildTableT ts).Rows, row.length = 4 ∧ row.length - 1 < row.length) := by
  refine ⟨?_, buildTable_eq ts, by simp [buildTableT, reportHeaders], ?_⟩
  · intro t row
    by_cases hc : row.length = t.Headers.length <;> simp [Table.Add, hc]
  · intro row hrow
    simp only [buildTableT, List.mem_flatMap, List.mem_map] at hrow
    obtain ⟨s, hs, tc, htc, rfl⟩ := hrow
    have hlen : (rowFor s tc).length = 4 := by simp [rowFor]
    exact ⟨hlen, by omega⟩

/-- C10, witness: the length facts at a concrete row of a concrete document's
table. -/
theorem table_add_panic_unreachable_witness :
    (rowFor { Name := "s", TestCase := [caseA, caseB] } caseA).length = 4 ∧
    (rowFor { Name := "s", TestCase := [caseA, caseB] } caseA).length - 1 <
      (rowFor { Name := "s", TestCase := [caseA, caseB] } caseA).length :=
  (table_add_panic_unreachable docTwo).2.2.2 _ (by decide)

/-! ### Permutation lemmas: every `GoSort` operation permutes its array.
These back the amended form of the immutability claim: rendering re-sorts the
row slice in place, so the rows after a render are a permutation of the rows
before it. -/

theorem getElem_cons_set_perm {α : Type} (l : List α) (k : Nat) (hk : k < l.length) (a : α) :
    (l[k] :: l.set k a).Perm (a :: l) := by
  induction l generalizing k with
  | nil => simp at hk
  | cons x t ih =>
    cases k with
    | zero => simpa using List.Perm.swap a x t
    | succ k =>
      have hk' : k < t.length := by simpa using hk
      have h1 : ((x :: t)[k + 1] :: (x :: t).set (k + 1) a) = (t[k] :: x :: t.set k a) := by simp
      rw [h1]
      exact (List.Perm.swap x (t[k]) (t.set k a)).trans
        (((ih k hk').cons x).trans (List.Perm.swap a x t))

theorem set_getElem_self_eq {α : Type} (l : List α) (i : Nat) (h : i < l.length) :
    l.set i l[i] = l := by
  apply List.ext_getElem
  · simp
  · intro n h1 h2
    rw [List.getElem_set]
    split
    · next he => subst he; rfl
    · rfl

theorem set_set_swap_perm {α : Type} (l : List α) (i j : Nat) (hi : i < l.length)
    (hj : j < l.length) : ((l.set i l[j]).set j l[i]).Perm l := by
  by_cases hij : i = j
  · subst hij
    rw [List.set_set, set_getElem_self_eq l i hi]
  · have h1 := getElem_cons_set_perm (l.set i l[j]) j (by simpa using hj) l[i]
    rw [List.getElem_set_ne hij] at h1
    have h2 := getElem_cons_set_perm l i hi l[j]
    exact (h1.trans h2).cons_inv

namespace GoSort

variable {α : Type} [Inhabited α] (less : α → α → Bool)

omit [Inhabited α] in
theorem swap_perm (data : Array α) (i j : Nat) :
    (swap data i j).toList.Perm data.toList := by
  unfold swap
  split
  · next h =>
    rw [Array.toList_swap, Array.get_eq_getElem, Array.get_eq_getElem]
    simp only [Array.getElem_eq_getElem_toList]
    exact set_set_swap_perm data.toList i j
      (by simpa [Array.length_toList] using h.1) (by simpa [Array.length_toList] using h.2)
  · exact List.Perm.refl _

theorem insertionInner_perm (data : Array α) (a j : Nat) :
    (insertionInner less data a j).toList.Perm data.toList := by
  induction j generalizing data with
  | zero => simp only [insertionInner]; exact List.Perm.refl _
  | succ j ih =>
    simp only [insertionInner]
    split
    · exact (ih _).trans (swap_perm _ _ _)
    · exact List.Perm.refl _

theorem insertionOuter_perm (data : Array α) (a i b fuel : Nat) :
    (insertionOuter less data a i b fuel).toList.Perm data.toList := by
  induction fuel generalizing data i with
  | zero => exact List.Perm.refl _
  | succ fuel ih =>
    simp only [insertionOuter]
    split
    · exact (ih _ _).trans (insertionInner_perm less data a i)
    · exact List.Perm.refl _

theorem insertionSort_perm (data : Array α) (a b : Nat) :
    (insertionSort less data a b).toList.Perm data.toList :=
  insertionOuter_perm less data a (a + 1) b (b + 1)

theorem siftDownLoop_perm (data : Array α) (root hi first fuel : Nat) :
    (siftDownLoop less data root hi first fuel).toList.Perm data.toList := by
  induction fuel generalizing data root with
  | zero => exact List.Perm.refl _
  | succ fuel ih =>
    simp only [siftDownLoop]
    split
    · split
      · split
        · exact (ih _ _).trans (swap_perm _ _ _)
        · exact List.Perm.refl _
      · split
        · exact (ih _ _).trans (swap_perm _ _ _)
        · exact List.Perm.refl _
    · exact List.Perm.refl _

theorem heapBuild_perm (data : Array α) (i1 hi first : Nat) :
    (heapBuild less data i1 hi first).toList.Perm data.toList := by
  induction i1 generalizing data with
  | zero => exact List.Perm.refl _
  | succ i ih =>
    simp only [heapBuild]
    exact (ih _).trans (siftDownLoop_perm less data i hi first (hi + 1))

theorem heapPop_perm (data : Array α) (i1 first : Nat) :
    (heapPop less data i1 first).toList.Perm data.toList := by
  induction i1 generalizing data with
  | zero => exact List.Perm.refl _
  | succ i ih =>
    simp only [heapPop]
    exact (ih _).trans ((siftDownLoop_perm less _ 0 i first (i + 1)).trans (swap_perm _ _ _))

theorem heapSort_perm (data : Array α) (a b : Nat) :
    (heapSort less data a b).toList.Perm data.toList := by
  unfold heapSort
  exact (heapPop_perm less _ _ _).trans (heapBuild_perm less data _ _ _)

omit [Inhabited α] in
theorem reverseRangeLoop_perm (data : Array α) (i j fuel : Nat) :
    (reverseRangeLoop data i j fuel).toList.Perm data.toList := by
  induction fuel generalizing data i j with
  | zero => exact List.Perm.refl _
  | succ fuel ih =>
    simp only [reverseRangeLoop]
    split
    · exact (ih _ _ _).trans (swap_perm _ _ _)
    · exact List.Perm.refl _

omit [Inhabited α] in
theorem reverseRange_perm (data : Array α) (a b : Nat) :
    (reverseRange data a b).toList.Perm data.toList :=
  reverseRangeLoop_perm data a (b - 1) b

omit [Inhabited α] in
theorem breakLoop_perm (data : Array α) (a length modulus idx rand i rem : Nat) :
    (breakLoop data a length modulus idx rand i rem).toList.Perm data.toList := by
  induction rem generalizing data rand i with
  | zero => exact List.Perm.refl _
  | succ rem ih =>
    simp only [breakLoop]
    exact (ih _ _ _).trans (swap_perm _ _ _)

omit [Inhabited α] in
theorem breakPatterns_perm (data : Array α) (a b : Nat) :
    (breakPatterns data a b).toList.Perm data.toList := by
  simp only [breakPatterns]
  split
  · exact breakLoop_perm _ _ _ _ _ _ _ _
  · exact List.Perm.refl _

theorem shiftLeftLoop_perm (data : Array α) (j : Nat) :
    (shiftLeftLoop less data j).toList.Perm data.toList := by
  induction j generalizing data with
  | zero => exact List.Perm.refl _
  | succ j ih =>
    simp only [shiftLeftLoop]
    split
    · exact (ih _).trans (swap_perm _ _ _)
    · exact List.Perm.refl _

theorem shiftRightLoop_perm (data : Array α) (j b fuel : Nat) :
    (shiftRightLoop less data j b fuel).toList.Perm data.toList := by
  induction fuel generalizing data j with
  | zero => exact List.Perm.refl _
  | succ fuel ih =>
    simp only [shiftRightLoop]
    split
    · exact (ih _ _).trans (swap_perm _ _ _)
    · exact List.Perm.refl _

theorem partInsLoop_perm (data : Array α) (a b i steps : Nat) :
    (partInsLoop less data a b i steps).1.toList.Perm data.toList := by
  induction steps generalizing data i with
  | zero => exact List.Perm.refl _
  | succ steps ih =>
    simp only [partInsLoop]
    generalize scanSorted less data i b (b + 1) = i'
    split
    · exact List.Perm.refl _
    · split
      · exact List.Perm.refl _
      · refine (ih _ _).trans ?_
        have h1 : (swap data i' (i' - 1)).toList.Perm data.toList := swap_perm data i' (i' - 1)
        have h2 : ((if i' - a ≥ 2 then shiftLeftLoop less (swap data i' (i' - 1)) (i' - 1)
            else swap data i' (i' - 1)) : Array α).toList.Perm data.toList := by
          split
          · exact (shiftLeftLoop_perm less _ _).trans h1
          · exact h1
        split
        · exact (shiftRightLoop_perm less _ _ _ _).trans h2
        · exact h2

theorem partInsertionSort_perm (data : Array α) (a b : Nat) :
    (partInsertionSort less data a b).1.toList.Perm data.toList :=
  partInsLoop_perm less data a b (a + 1) 5

theorem partLoop_perm (data : Array α) (a i j fuel : Nat) :
    (partLoop less data a i j fuel).1.toList.Perm data.toList := by
  induction fuel generalizing data i j with
  | zero => exact List.Perm.refl _
  | succ fuel ih =>
    simp only [partLoop]
    split
    · exact List.Perm.refl _
    · exact (ih _ _ _).trans (swap_perm _ _ _)

theorem partitionGo_perm (data : Array α) (a b pivot : Nat) :
    (partitionGo less data a b pivot).1.toList.Perm data.toList := by
  simp only [partitionGo]
  split
  · exact (swap_perm _ _ _).trans (swap_perm _ _ _)
  · exact (swap_perm _ _ _).trans
      ((partLoop_perm less _ _ _ _ _).trans ((swap_perm _ _ _).trans (swap_perm _ _ _)))

theorem partEqLoop_perm (data : Array α) (a i j fuel : Nat) :
    (partEqLoop less data a i j fuel).1.toList.Perm data.toList := by
  induction fuel generalizing data i j with
  | zero => exact List.Perm.refl _
  | succ fuel ih =>
    simp only [partEqLoop]
    split
    · exact List.Perm.refl _
    · exact (ih _ _ _).trans (swap_perm _ _ _)

theorem partitionEqual_perm (data : Array α) (a b pivot : Nat) :
    (partitionEqual less data a b pivot).1.toList.Perm data.toList := by
  simp only [partitionEqual]
  exact (partEqLoop_perm less _ _ _ _ _).trans (swap_perm _ _ _)

theorem pdqsortCont_perm (go : Array α → Nat → Nat → Nat → Bool → Bool → Array α)
    (hgo : ∀ d a' b' l' wb wp, (go d a' b' l' wb wp).toList.Perm d.toList)
    (a b limit pivot : Nat) (wasBalanced wasPartitioned : Bool) (data : Array α) :
    (pdqsortCont less go a b limit pivot wasBalanced wasPartitioned data).toList.Perm
      data.toList := by
  simp only [pdqsortCont]
  split
  · exact (hgo _ _ _ _ _ _).trans (partitionEqual_perm less data a b pivot)
  · split
    · exact (hgo _ _ _ _ _ _).trans
        ((hgo _ _ _ _ _ _).trans (partitionGo_perm less data a b pivot))
    · exact (hgo _ _ _ _ _ _).trans
        ((hgo _ _ _ _ _ _).trans (partitionGo_perm less data a b pivot))

theorem pdqsortLoop_perm (data : Array α) (a b limit : Nat)
    (wasBalanced wasPartitioned : Bool) (fuel : Nat) :
    (pdqsortLoop less data a b limit wasBalanced wasPartitioned fuel).toList.Perm data.toList := by
  induction fuel generalizing data a b limit wasBalanced wasPartitioned with
  | zero => exact List.Perm.refl _
  | succ fuel ih =>
    simp only [pdqsortLoop]
    split
    · exact insertionSort_perm less data a b
    · split
      · exact heapSort_perm less data a b
      · have hdl : ((if wasBalanced then (data, limit)
            else (breakPatterns data a b, limit - 1)) : Array α × Nat).1.toList.Perm data.toList := by
          split
          · exact List.Perm.refl _
          · exact breakPatterns_perm data a b
        generalize hq : (if wasBalanced then (data, limit)
            else (breakPatterns data a b, limit - 1) : Array α × Nat) = dl at hdl ⊢
        generalize choosePivot less dl.1 a b = ph
        have hdph : ((if ph.2 = Hint.decreasing then
            (reverseRange dl.1 a b, (b - 1) - (ph.1 - a), Hint.increasing)
            else (dl.1, ph.1, ph.2) : Array α × Nat × Hint)).1.toList.Perm data.toList := by
          split
          · exact (reverseRange_perm dl.1 a b).trans hdl
          · exact hdl
        generalize hq2 : (if ph.2 = Hint.decreasing then
            (reverseRange dl.1 a b, (b - 1) - (ph.1 - a), Hint.increasing)
            else (dl.1, ph.1, ph.2) : Array α × Nat × Hint) = dph at hdph ⊢
        have hgo : ∀ (d : Array α) (a' b' l' : Nat) (wb wp : Bool),
            (pdqsortLoop less d a' b' l' wb wp fuel).toList.Perm d.toList :=
          fun d a' b' l' wb wp => ih d a' b' l' wb wp
        split
        · split
          · exact (partInsertionSort_perm less dph.1 a b).trans hdph
          · exact (pdqsortCont_perm less _ hgo a b dl.2 dph.2.1 wasBalanced wasPartitioned
              _).trans ((partInsertionSort_perm less dph.1 a b).trans hdph)
        · exact (pdqsortCont_perm less _ hgo a b dl.2 dph.2.1 wasBalanced wasPartitioned
            _).trans hdph

theorem pdqsort_perm (data : Array α) (a b limit : Nat) :
    (pdqsort less data a b limit).toList.Perm data.toList :=
  pdqsortLoop_perm less data a b limit true true (b - a + 1)

theorem sortSlice_perm (data : Array α) :
    (sortSlice less data).toList.Perm data.toList :=
  pdqsort_perm less data 0 data.size (goBitsLen data.size)

end GoSort

/-- C2, counterexample: for the report built from the two-case document
`docTwo` (a passing row, then a failing row), the row sequence held by the
report after `Print` differs from the row sequence before it — the in-place
`sort.Slice` moved the failing row to the front.  This refutes "the sequence
of rows held by the report is identical before and after every render". -/
theorem print_mutates_row_sequence :
    ((NewReport "1" "t" (buildTableT docTwo)).Print).2.table.Rows ≠
      (NewReport "1" "t" (buildTableT docTwo)).table.Rows := by decide

/-- C2, amended: rendering leaves every field of the report except the row
sequence unchanged — time, timestamp, the success flag, both counts, the
table headers and separator — and the rows after the render are a
permutation of the rows before it: `Print` re-sorts the row slice in place
via `sort.Slice`, and that re-sorting is its only mutation. -/
theorem print_preserves_all_but_row_order (r : Report) :
    (r.Print.2.Time = r.Time) ∧ (r.Print.2.Timestamp = r.Timestamp) ∧
    (r.Print.2.OK = r.OK) ∧ (r.Print.2.Failures = r.Failures) ∧
    (r.Print.2.Passes = r.Passes) ∧
    (r.Print.2.table.Headers = r.table.Headers) ∧
    (r.Print.2.table.Separator = r.table.Separator) ∧
    r.Print.2.table.Rows.Perm r.table.Rows := by
  refine ⟨rfl, rfl, rfl, rfl, rfl, rfl, rfl, ?_⟩
  have h := GoSort.sortSlice_perm rowLess r.table.Rows.toArray
  simpa [Report.Print, Array.toList_toArray] using h

/-- C3, evaluation at the failing input: render the report built from
`docThirteen` (cases `c0` … `c11` passing, in aggregation order, then `c12`
failing).  The rendered data rows are grouped by status in descending label
order — the failing row first, then all passing rows — but the sort is not
stable: the passing rows come out as c6, c2, c3, c4, c5, c0, c7, c8, c9,
c10, c11, c1 rather than in the aggregation order c0 … c11 that the claim
requires (`sort.Slice` takes the unstable partitioning path above twelve
elements). -/
theorem print_sort_not_stable_concrete :
    (((NewReport docThirteen.Time docThirteen.Timestamp
          (buildTableT docThirteen)).Print).2.table.Rows.map (fun row => row.getD 1 "") =
      ["c12", "c6", "c2", "c3", "c4", "c5", "c0", "c7", "c8", "c9", "c10", "c11", "c1"]) ∧
    ((buildTableT docThirteen).Rows.map (fun row => row.getD 1 "") =
      ["c0", "c1", "c2", "c3", "c4", "c5", "c6", "c7", "c8", "c9", "c10", "c11", "c12"]) ∧
    (((NewReport docThirteen.Time docThirteen.Timestamp
          (buildTableT docThirteen)).Print).2.table.Rows.map lastField =
      Failed :: List.replicate 12 Passed) ∧
    ((((NewReport docThirteen.Time docThirteen.Timestamp
          (buildTableT docThirteen)).Print).2.table.Rows.filter
        (fun row => lastField row == Passed)).map (fun row => row.getD 1 "") ≠
      (((buildTableT docThirteen).Rows.filter
        (fun row => lastField row == Passed)).map (fun row => row.getD 1 ""))) := by
  set_option maxRecDepth 200000 in decide

/-! ### Correctness of the `sort.Slice` transcription.
The remaining development proves that `GoSort.sortSlice` sorts (its output
satisfies `sortedRange`) and that it is the identity on sorted input; both
are proved for any comparator that is asymmetric and whose negation is
transitive — a strict weak order, which the status comparator of
`Report.Print` is.  Together with the permutation lemmas this settles the
idempotence of re-rendering. -/

namespace GoSort

variable {α : Type} [Inhabited α] (less : α → α → Bool)

omit [Inhabited α] in
theorem size_swap' (data : Array α) (i j : Nat) : (swap data i j).size = data.size := by
  unfold swap
  split
  · exact Array.size_swap ..
  · rfl

omit [Inhabited α] in
theorem size_of_perm {d e : Array α} (h : d.toList.Perm e.toList) : d.size = e.size := by
  have h2 := h.length_eq
  simpa [Array.length_toList] using h2

theorem get_eq (data : Array α) (k : Nat) (hk : k < data.size) :
    get data k = data[k] := by
  unfold get
  rw [Array.getD, dif_pos hk, Array.get_eq_getElem]

theorem get_eq_getElem_toList (data : Array α) (k : Nat) (hk : k < data.size)
    (hk2 : k < data.toList.length) :
    get data k = data.toList[k] := by
  rw [get_eq data k hk]
  exact Array.getElem_eq_getElem_toList _

theorem get_oob (data : Array α) (k : Nat) (hk : ¬ k < data.size) :
    get data k = default := by
  unfold get
  rw [Array.getD, dif_neg hk]

theorem get_swap (data : Array α) (i j k : Nat) (hi : i < data.size) (hj : j < data.size) :
    get (swap data i j) k =
      if k = i then get data j else if k = j then get data i else get data k := by
  unfold swap
  rw [dif_pos ⟨hi, hj⟩]
  by_cases hk : k < data.size
  · rw [get_eq _ _ (by simpa [Array.size_swap] using hk), Array.getElem_swap]
    by_cases h1 : k = i
    · rw [if_pos h1, if_pos h1, get_eq data j hj]
      rfl
    · rw [if_neg h1, if_neg h1]
      by_cases h2 : k = j
      · rw [if_pos h2, if_pos h2, get_eq data i hi]
        rfl
      · rw [if_neg h2, if_neg h2, get_eq data k hk]
  · have h1 : ¬ k = i := fun he => hk (he ▸ hi)
    have h2 : ¬ k = j := fun he => hk (he ▸ hj)
    rw [if_neg h1, if_neg h2, get_oob _ _ (by simpa [Array.size_swap] using hk),
      get_oob _ _ hk]

theorem get_swap_ne (data : Array α) (i j k : Nat) (h1 : k ≠ i) (h2 : k ≠ j) :
    get (swap data i j) k = get data k := by
  unfold swap
  split
  · next h =>
    by_cases hk : k < data.size
    · rw [get_eq _ _ (by simpa [Array.size_swap] using hk), Array.getElem_swap,
        if_neg h1, if_neg h2, get_eq data k hk]
    · rw [get_oob _ _ (by simpa [Array.size_swap] using hk), get_oob _ _ hk]
  · rfl

theorem get_swap_left (data : Array α) (i j : Nat) (hi : i < data.size) (hj : j < data.size) :
    get (swap data i j) i = get data j := by
  rw [get_swap data i j i hi hj, if_pos rfl]

theorem get_swap_right (data : Array α) (i j : Nat) (hi : i < data.size) (hj : j < data.size) :
    get (swap data i j) j = get data i := by
  rw [get_swap data i j j hi hj]
  by_cases h : j = i
  · rw [if_pos h, h]
  · rw [if_neg h, if_pos rfl]

end GoSort

namespace GoSort

variable {α : Type} [Inhabited α] (less : α → α → Bool)
variable (hAsym : ∀ x y, less x y = true → less y x = false)
variable (hTransNeg : ∀ x y z, less x y = false → less y z = false → less x z = false)

omit [Inhabited α] in
include hAsym in
theorem less_irrefl (x : α) : less x x = false := by
  cases h : less x x
  · rfl
  · have h2 := hAsym x x h
    rw [h] at h2
    exact h2

omit [Inhabited α] in
include hTransNeg in
theorem less_of_less_of_notLess {x y z : α} (h1 : less x y = true) (h2 : less z y = false) :
    less x z = true := by
  cases h : less x z
  · have h3 := hTransNeg x z y h h2
    rw [h1] at h3
    exact h3.symm
  · rfl

theorem sortedRange_mono {data : Array α} {a b a' b' : Nat}
    (h : sortedRange less data a b) (ha : a ≤ a') (hb : b' ≤ b) :
    sortedRange less data a' b' :=
  fun k hk1 hk2 => h k (ha.trans hk1) (by omega)

include hAsym hTransNeg in
theorem sortedRange_pairwise {data : Array α} {a b : Nat}
    (hs : sortedRange less data a b) :
    ∀ p q, a ≤ p → p ≤ q → q < b → less (get data q) (get data p) = false := by
  intro p q hap hpq hqb
  induction q, hpq using Nat.le_induction with
  | base => exact less_irrefl less hAsym _
  | succ q hq ih =>
    exact hTransNeg _ _ _ (hs q (by omega) (by omega)) (ih (by omega))

end GoSort

namespace GoSort

variable {α : Type} [Inhabited α]

/-- If an operation permutes the whole array but leaves everything outside
`[a, b)` untouched, then the multiset of `[a, b)` is preserved, so any
property that held of every element of `[a, b)` before still holds of every
element of `[a, b)` after. -/
theorem transport_forall_range {d e : Array α} {a b : Nat}
    (hperm : e.toList.Perm d.toList) (hsize : e.size = d.size) (hb : b ≤ d.size)
    (hout : ∀ k, k < a ∨ b ≤ k → get e k = get d k)
    (P : α → Prop) (hP : ∀ k, a ≤ k → k < b → P (get d k)) :
    ∀ k, a ≤ k → k < b → P (get e k) := by
  intro k hak hkb
  have hab : a < b := by omega
  have hlen_e : e.toList.length = e.size := Array.length_toList
  have hlen_d : d.toList.length = d.size := Array.length_toList
  -- decompositions
  have hsplit : ∀ (x : List α), x = x.take a ++ ((x.drop a).take (b - a) ++ x.drop b) := by
    intro x
    have h2 : (x.drop a).drop (b - a) = x.drop b := by
      rw [List.drop_drop]
      congr 1
      omega
    conv_lhs => rw [← List.take_append_drop a x, ← List.take_append_drop (b - a) (x.drop a)]
    rw [h2]
  -- equal prefix
  have hpre : e.toList.take a = d.toList.take a := by
    apply List.ext_getElem
    · simp [hsize, hlen_e, hlen_d]
    · intro n h1 h2
      rw [List.getElem_take, List.getElem_take]
      have hn : n < a := by
        have := h1
        simp only [List.length_take] at this
        omega
      rw [← get_eq_getElem_toList e n (by omega) (by omega),
        ← get_eq_getElem_toList d n (by omega) (by omega)]
      exact hout n (Or.inl hn)
  -- equal suffix
  have hsuf : e.toList.drop b = d.toList.drop b := by
    apply List.ext_getElem
    · simp [hsize, hlen_e, hlen_d]
    · intro n h1 h2
      rw [List.getElem_drop, List.getElem_drop]
      have hn : b + n < d.size := by
        simp only [List.length_drop] at h2
        omega
      rw [← get_eq_getElem_toList e (b + n) (by omega) (by omega),
        ← get_eq_getElem_toList d (b + n) hn (by omega)]
      exact hout (b + n) (Or.inr (by omega))
  -- segment permutation
  have hsegperm : ((e.toList.drop a).take (b - a)).Perm ((d.toList.drop a).take (b - a)) := by
    have h1 := hperm
    rw [hsplit e.toList, hsplit d.toList, hpre, hsuf] at h1
    have h2 := (List.perm_append_left_iff _).mp h1
    exact (List.perm_append_right_iff _).mp h2
  -- the element at k is in the e-segment
  have hseglen_e : ((e.toList.drop a).take (b - a)).length = b - a := by
    simp [hlen_e, hsize]
    omega
  have hget_seg_e : ∀ t, t < b - a → ∀ (ht2 : t < ((e.toList.drop a).take (b - a)).length),
      ((e.toList.drop a).take (b - a))[t] = get e (a + t) := by
    intro t ht ht2
    rw [List.getElem_take, List.getElem_drop]
    exact (get_eq_getElem_toList e (a + t) (by omega) (by omega)).symm
  have hseglen_d : ((d.toList.drop a).take (b - a)).length = b - a := by
    simp [hlen_d]
    omega
  have hget_seg_d : ∀ t, t < b - a → ∀ (ht2 : t < ((d.toList.drop a).take (b - a)).length),
      ((d.toList.drop a).take (b - a))[t] = get d (a + t) := by
    intro t ht ht2
    rw [List.getElem_take, List.getElem_drop]
    exact (get_eq_getElem_toList d (a + t) (by omega) (by omega)).symm
  have hmem : get e k ∈ (e.toList.drop a).take (b - a) := by
    have hkt : k - a < b - a := by omega
    have := hget_seg_e (k - a) hkt (by omega)
    have hk' : a + (k - a) = k := by omega
    rw [hk'] at this
    rw [← this]
    exact List.getElem_mem _
  have hmem_d : get e k ∈ (d.toList.drop a).take (b - a) := hsegperm.mem_iff.mp hmem
  obtain ⟨t, ht, hte⟩ := List.getElem_of_mem hmem_d
  have ht' : t < b - a := by omega
  rw [hget_seg_d t ht' ht] at hte
  rw [← hte]
  exact hP (a + t) (by omega) (by omega)

end GoSort

namespace GoSort

variable {α : Type} [Inhabited α] (less : α → α → Bool)
variable (hAsym : ∀ x y, less x y = true → less y x = false)
variable (hTransNeg : ∀ x y z, less x y = false → less y z = false → less x z = false)

theorem insertionInner_untouched (data : Array α) (a j : Nat) :
    ∀ k, k < a ∨ j < k → get (insertionInner less data a j) k = get data k := by
  induction j generalizing data with
  | zero => intro k _; rfl
  | succ j ih =>
    intro k hk
    rw [insertionInner]
    split
    · rw [ih _ _ (by omega), get_swap_ne _ _ _ _ (by omega) (by omega)]
    · rfl

theorem size_insertionInner (data : Array α) (a j : Nat) :
    (insertionInner less data a j).size = data.size :=
  size_of_perm (insertionInner_perm less data a j)

include hAsym in
/-- The inner loop of insertion sort: inserting the gap element at `j` into
the sorted pairs of `[a, top]` (all pairs hold except `(j-1, j)`, and the
skip pair `(j-1, j+1)` holds) yields all pairs of `[a, top]`. -/
theorem insertionInner_spec (data : Array α) (a j top : Nat)
    (hj : a ≤ j) (hjt : j ≤ top) (htop : top < data.size)
    (h1 : ∀ k, a ≤ k → k + 1 ≤ top → ¬(k + 1 = j ∧ a < j) →
      less (get data (k + 1)) (get data k) = false)
    (h2 : j < top → a < j → less (get data (j + 1)) (get data (j - 1)) = false) :
    ∀ k, a ≤ k → k + 1 ≤ top →
      less (get (insertionInner less data a j) (k + 1)) (get (insertionInner less data a j) k)
        = false := by
  induction j generalizing data with
  | zero =>
    intro k hk1 hk2
    have hj0 : ¬ (k + 1 = 0 ∧ a < 0) := by omega
    simpa [insertionInner] using h1 k hk1 hk2 hj0
  | succ j ih =>
    rw [insertionInner]
    split
    · next hcond =>
      -- swap (j+1, j), gap moves to j
      have hsw : j + 1 < data.size := by omega
      have hsw2 : j < data.size := by omega
      have hget : ∀ m, get (swap data (j + 1) j) m =
          if m = j + 1 then get data j else if m = j then get data (j + 1) else get data m := by
        intro m
        rw [get_swap data (j + 1) j m hsw hsw2]
      apply ih (swap data (j + 1) j) (by omega) (by omega)
        (by rw [size_swap']; omega)
      · -- pairs of [a, top] with the gap moved to j
        intro k hk1 hk2 hk3
        have hk3' : k + 1 ≠ j := fun he => hk3 ⟨he, by omega⟩
        by_cases hkj : k + 1 = j + 1
        · -- pair (j, j+1): asymmetry of the swapped inversion
          have hkj' : k = j := by omega
          subst hkj'
          rw [hget, hget, if_pos rfl, if_neg (by omega), if_pos rfl]
          exact hAsym _ _ hcond.2
        · by_cases hkj2 : k + 1 = j + 2
          · -- pair (j+1, j+2): the old skip pair
            have hk' : k = j + 1 := by omega
            subst hk'
            rw [hget, hget, if_neg (by omega), if_neg (by omega), if_pos rfl]
            simpa using h2 (by omega) (by omega)
          · -- pairs away from the swap are unchanged
            rw [hget, hget, if_neg hkj, if_neg hk3', if_neg (by omega), if_neg (by omega)]
            exact h1 k hk1 hk2 (by omega)
      · -- the new skip pair (j-1, j+1): the old pair (j-1, j)
        intro hjt2 haj
        rw [hget, hget, if_pos rfl, if_neg (by omega), if_neg (by omega)]
        have := h1 (j - 1) (by omega) (by omega) (by omega)
        simpa [Nat.sub_add_cancel (by omega : 1 ≤ j)] using this
    · next hcond =>
      -- the loop exits: the gap pair itself holds (or sits on the boundary)
      intro k hk1 hk2
      by_cases hkj : k + 1 = j + 1 ∧ a < j + 1
      · have hp : less (get data (j + 1)) (get data j) = false := by
          cases hl : less (get data (j + 1)) (get data j)
          · rfl
          · exact absurd ⟨by omega, hl⟩ hcond
        have hk' : k = j := by omega
        subst hk'
        exact hp
      · exact h1 k hk1 hk2 hkj

theorem insertionOuter_untouched (data : Array α) (a i b fuel : Nat) :
    ∀ k, k < a ∨ b ≤ k → get (insertionOuter less data a i b fuel) k = get data k := by
  induction fuel generalizing data i with
  | zero => intro k _; rfl
  | succ fuel ih =>
    intro k hk
    rw [insertionOuter]
    split
    · next hib =>
      rw [ih _ _ _ hk, insertionInner_untouched _ _ _ _ _ (by omega)]
    · rfl

theorem size_insertionOuter (data : Array α) (a i b fuel : Nat) :
    (insertionOuter less data a i b fuel).size = data.size :=
  size_of_perm (insertionOuter_perm less data a i b fuel)

include hAsym in
theorem insertionOuter_spec (data : Array α) (a i b fuel : Nat)
    (hfuel : b ≤ i + fuel) (hb : b ≤ data.size) (hai : a < i)
    (hs : sortedRange less data a i) :
    sortedRange less (insertionOuter less data a i b fuel) a b := by
  induction fuel generalizing data i with
  | zero =>
    intro k hk1 hk2
    exact hs k hk1 (by omega)
  | succ fuel ih =>
    rw [insertionOuter]
    split
    · next hib =>
      apply ih (insertionInner less data a i) (i + 1) (by omega)
        (by rw [size_insertionInner]; omega) (by omega)
      intro k hk1 hk2
      exact insertionInner_spec less hAsym data a i i (by omega) le_rfl (by omega)
        (fun m hm1 hm2 hm3 => hs m hm1 (by omega))
        (by omega)
        k hk1 (by omega)
    · next hib =>
      intro k hk1 hk2
      exact hs k hk1 (by omega)

theorem size_insertionSort (data : Array α) (a b : Nat) :
    (insertionSort less data a b).size = data.size :=
  size_of_perm (insertionSort_perm less data a b)

theorem insertionSort_untouched (data : Array α) (a b : Nat) :
    ∀ k, k < a ∨ b ≤ k → get (insertionSort less data a b) k = get data k := by
  intro k hk
  exact insertionOuter_untouched less data a (a + 1) b (b + 1) k hk

include hAsym in
theorem insertionSort_sorts (data : Array α) (a b : Nat) (hb : b ≤ data.size) :
    sortedRange less (insertionSort less data a b) a b := by
  apply insertionOuter_spec less hAsym data a (a + 1) b (b + 1) (by omega) hb (by omega)
  intro k hk1 hk2
  omega

theorem partScanI_spec (data : Array α) (a i j fuel : Nat)
    (hfuel : j + 2 ≤ i + fuel) (hij : i ≤ j + 1) :
    i ≤ partScanI less data a i j fuel ∧ partScanI less data a i j fuel ≤ j + 1 ∧
    (∀ k, i ≤ k → k < partScanI less data a i j fuel →
      less (get data k) (get data a) = true) ∧
    (partScanI less data a i j fuel ≤ j →
      less (get data (partScanI less data a i j fuel)) (get data a) = false) := by
  induction fuel generalizing i with
  | zero => exfalso; omega
  | succ fuel ih =>
    rw [partScanI]
    split
    · next hcond =>
      obtain ⟨ih1, ih2, ih3, ih4⟩ := ih (i + 1) (by omega) (by omega)
      refine ⟨by omega, ih2, ?_, ih4⟩
      intro k hk1 hk2
      by_cases hk : k = i
      · subst hk; exact hcond.2
      · exact ih3 k (by omega) hk2
    · next hcond =>
      refine ⟨le_rfl, hij, by omega, ?_⟩
      intro hj
      cases hl : less (get data i) (get data a)
      · rfl
      · exact absurd ⟨hj, hl⟩ hcond

theorem partScanJ_spec (data : Array α) (a i : Nat) (hi : 1 ≤ i) :
    ∀ (fuel j : Nat), j + 1 ≤ fuel → i ≤ j + 1 →
    i - 1 ≤ partScanJ less data a i j fuel ∧ partScanJ less data a i j fuel ≤ j ∧
    (∀ k, partScanJ less data a i j fuel < k → k ≤ j →
      less (get data k) (get data a) = false) ∧
    (i ≤ partScanJ less data a i j fuel →
      less (get data (partScanJ less data a i j fuel)) (get data a) = true) := by
  intro fuel
  induction fuel with
  | zero => intro j hfuel hij0; exfalso; omega
  | succ fuel ih =>
    intro j hfuel hij0
    rw [partScanJ]
    split
    · next hcond =>
      obtain ⟨hij', hless⟩ := hcond
      have hj1 : 1 ≤ j := by omega
      obtain ⟨ih1, ih2, ih3, ih4⟩ := ih (j - 1) (by omega) (by omega)
      refine ⟨ih1, by omega, ?_, ih4⟩
      intro k hk1 hk2
      by_cases hk : k = j
      · subst hk
        cases hl : less (get data k) (get data a)
        · rfl
        · exact absurd hl (by simpa using hless)
      · exact ih3 k hk1 (by omega)
    · next hcond =>
      refine ⟨by omega, le_rfl, by omega, ?_⟩
      intro hij2
      cases hl : less (get data j) (get data a)
      · exact absurd ⟨hij2, by simp [hl]⟩ hcond
      · rfl

theorem partLoop_spec (a B : Nat) (p : α) :
    ∀ (fuel : Nat) (data : Array α) (i j : Nat),
      j + 2 ≤ i + fuel → a + 1 ≤ i → i ≤ j + 1 → j ≤ B → B < data.size →
      get data a = p →
      (∀ k, a + 1 ≤ k → k < i → less (get data k) p = true) →
      (∀ k, j < k → k ≤ B → less (get data k) p = false) →
      (i - 1 ≤ (partLoop less data a i j fuel).2 ∧ (partLoop less data a i j fuel).2 ≤ j) ∧
      get (partLoop less data a i j fuel).1 a = p ∧
      (∀ k, a + 1 ≤ k → k ≤ (partLoop less data a i j fuel).2 →
        less (get (partLoop less data a i j fuel).1 k) p = true) ∧
      (∀ k, (partLoop less data a i j fuel).2 < k → k ≤ B →
        less (get (partLoop less data a i j fuel).1 k) p = false) ∧
      (∀ k, k < i ∨ j < k → get (partLoop less data a i j fuel).1 k = get data k) := by
  intro fuel
  induction fuel with
  | zero =>
    intro data i j hfuel hai hij hjB hB hp hL hR
    exfalso; omega
  | succ fuel ih =>
    intro data i j hfuel hai hij hjB hB hp hL hR
    simp only [partLoop]
    have hSI := partScanI_spec less data a i j (j + 2) (by omega) hij
    obtain ⟨hSI1, hSI2, hSI3, hSI4⟩ := hSI
    rw [hp] at hSI3 hSI4
    have hSJ := partScanJ_spec less data a (partScanI less data a i j (j + 2))
      (by omega) (j + 1) j (by omega) hSI2
    obtain ⟨hSJ1, hSJ2, hSJ3, hSJ4⟩ := hSJ
    rw [hp] at hSJ3 hSJ4
    set i1 := partScanI less data a i j (j + 2) with hi1def
    set j1 := partScanJ less data a i1 j (j + 1) with hj1def
    split
    · next hcross =>
      refine ⟨⟨by omega, hSJ2⟩, hp, ?_, ?_, fun k _ => rfl⟩
      · intro k hk1 hk2
        by_cases hk : k < i
        · exact hL k hk1 hk
        · exact hSI3 k (by omega) (by omega)
      · intro k hk1 hk2
        by_cases hk : k ≤ j
        · exact hSJ3 k hk1 hk
        · exact hR k (by omega) hk2
    · next hcross =>
      have hle : i1 ≤ j1 := by omega
      have hlt : i1 < j1 := by
        rcases Nat.lt_or_ge i1 j1 with h | h
        · exact h
        · have he : i1 = j1 := by omega
          have h4 := hSJ4 hle
          have h5 := hSI4 (by omega)
          rw [← he] at h4
          rw [h4] at h5
          exact absurd h5 (by simp)
      have hi1s : i1 < data.size := by omega
      have hj1s : j1 < data.size := by omega
      have hrec := ih (swap data i1 j1) (i1 + 1) (j1 - 1)
        (by omega) (by omega) (by omega) (by omega)
        (by rw [size_swap']; omega)
        (by rw [get_swap_ne _ _ _ _ (by omega) (by omega)]; exact hp)
        (by
          intro k hk1 hk2
          by_cases hk : k = i1
          · subst hk
            rw [get_swap_left _ _ _ hi1s hj1s]
            exact hSJ4 hle
          · rw [get_swap_ne _ _ _ _ hk (by omega)]
            by_cases hk' : k < i
            · exact hL k hk1 hk'
            · exact hSI3 k (by omega) (by omega))
        (by
          intro k hk1 hk2
          by_cases hk : k = j1
          · subst hk
            rw [get_swap_right _ _ _ hi1s hj1s]
            exact hSI4 (by omega)
          · rw [get_swap_ne _ _ _ _ (by omega) hk]
            by_cases hk' : k ≤ j
            · exact hSJ3 k (by omega) hk'
            · exact hR k (by omega) hk2)
      obtain ⟨⟨r1a, r1b⟩, r2, r3, r4, r5⟩ := hrec
      refine ⟨⟨by omega, by omega⟩, r2, r3, r4, ?_⟩
      intro k hk
      rw [r5 k (by omega), get_swap_ne _ _ _ _ (by omega) (by omega)]

theorem partitionGo_spec (data : Array α) (a b pivot : Nat)
    (hab : a < b) (hp1 : a ≤ pivot) (hp2 : pivot < b) (hb : b ≤ data.size) :
    (a ≤ (partitionGo less data a b pivot).2.1 ∧ (partitionGo less data a b pivot).2.1 < b) ∧
    get (partitionGo less data a b pivot).1 (partitionGo less data a b pivot).2.1
      = get data pivot ∧
    (∀ k, a ≤ k → k < (partitionGo less data a b pivot).2.1 →
      less (get (partitionGo less data a b pivot).1 k) (get data pivot) = true) ∧
    (∀ k, (partitionGo less data a b pivot).2.1 < k → k < b →
      less (get (partitionGo less data a b pivot).1 k) (get data pivot) = false) ∧
    (∀ k, k < a ∨ b ≤ k → get (partitionGo less data a b pivot).1 k = get data k) := by
  simp only [partitionGo]
  have has : a < data.size := by omega
  have hps : pivot < data.size := by omega
  set d1 := swap data a pivot with hd1def
  have hsd1 : d1.size = data.size := size_swap' data a pivot
  have hp : get d1 a = get data pivot := get_swap_left data a pivot has hps
  have hSI := partScanI_spec less d1 a (a + 1) (b - 1) (b - 1 + 2) (by omega) (by omega)
  obtain ⟨hSI1, hSI2, hSI3, hSI4⟩ := hSI
  rw [hp] at hSI3 hSI4
  set i1 := partScanI less d1 a (a + 1) (b - 1) (b - 1 + 2) with hi1def
  have hSJ := partScanJ_spec less d1 a i1 (by omega) (b - 1 + 1) (b - 1) (by omega) hSI2
  obtain ⟨hSJ1, hSJ2, hSJ3, hSJ4⟩ := hSJ
  rw [hp] at hSJ3 hSJ4
  set j1 := partScanJ less d1 a i1 (b - 1) (b - 1 + 1) with hj1def
  split
  · next hcross =>
    dsimp only
    have hj1s : j1 < data.size := by omega
    refine ⟨⟨by omega, by omega⟩, ?_, ?_, ?_, ?_⟩
    · rw [get_swap_left d1 j1 a (by omega) (by omega)]
      exact hp
    · intro k hk1 hk2
      by_cases hka : k = a
      · subst hka
        rw [get_swap_right d1 j1 k (by omega) (by omega)]
        exact hSI3 j1 (by omega) (by omega)
      · rw [get_swap_ne d1 j1 a k (by omega) (by omega)]
        exact hSI3 k (by omega) (by omega)
    · intro k hk1 hk2
      rw [get_swap_ne d1 j1 a k (by omega) (by omega)]
      exact hSJ3 k hk1 (by omega)
    · intro k hk
      rw [get_swap_ne d1 j1 a k (by omega) (by omega),
        get_swap_ne data a pivot k (by omega) (by omega)]
  · next hcross =>
    dsimp only
    have hle : i1 ≤ j1 := by omega
    have hlt : i1 < j1 := by
      rcases Nat.lt_or_ge i1 j1 with h | h
      · exact h
      · have he : i1 = j1 := by omega
        have h4 := hSJ4 hle
        have h5 := hSI4 (by omega)
        rw [← he] at h4
        rw [h4] at h5
        exact absurd h5 (by simp)
    have hi1s : i1 < data.size := by omega
    have hj1s : j1 < data.size := by omega
    set d2 := swap d1 i1 j1 with hd2def
    have hsd2 : d2.size = data.size := by rw [hd2def, size_swap', hsd1]
    have hPL := partLoop_spec less a (b - 1) (get data pivot) b d2 (i1 + 1) (j1 - 1)
      (by omega) (by omega) (by omega) (by omega) (by omega)
      (by rw [hd2def, get_swap_ne d1 i1 j1 a (by omega) (by omega)]; exact hp)
      (by
        intro k hk1 hk2
        by_cases hk : k = i1
        · subst hk
          rw [hd2def, get_swap_left d1 i1 j1 (by omega) (by omega)]
          exact hSJ4 hle
        · rw [hd2def, get_swap_ne d1 i1 j1 k hk (by omega)]
          exact hSI3 k hk1 (by omega))
      (by
        intro k hk1 hk2
        by_cases hk : k = j1
        · subst hk
          rw [hd2def, get_swap_right d1 i1 j1 (by omega) (by omega)]
          exact hSI4 (by omega)
        · rw [hd2def, get_swap_ne d1 i1 j1 k (by omega) hk]
          exact hSJ3 k (by omega) hk2)
    obtain ⟨⟨r1a, r1b⟩, r2, r3, r4, r5⟩ := hPL
    set d3 := (partLoop less d2 a (i1 + 1) (j1 - 1) b).1 with hd3def
    set jf := (partLoop less d2 a (i1 + 1) (j1 - 1) b).2 with hjfdef
    have hsd3 : d3.size = data.size := by
      rw [hd3def]
      rw [size_of_perm (partLoop_perm less d2 a (i1 + 1) (j1 - 1) b)]
      exact hsd2
    have hjfs : jf < data.size := by omega
    refine ⟨⟨by omega, by omega⟩, ?_, ?_, ?_, ?_⟩
    · rw [get_swap_left d3 jf a (by omega) (by omega)]
      exact r2
    · intro k hk1 hk2
      by_cases hka : k = a
      · subst hka
        rw [get_swap_right d3 jf k (by omega) (by omega)]
        exact r3 jf (by omega) le_rfl
      · rw [get_swap_ne d3 jf a k (by omega) (by omega)]
        exact r3 k (by omega) (by omega)
    · intro k hk1 hk2
      rw [get_swap_ne d3 jf a k (by omega) (by omega)]
      exact r4 k hk1 (by omega)
    · intro k hk
      rw [get_swap_ne d3 jf a k (by omega) (by omega), r5 k (by omega),
        hd2def, get_swap_ne d1 i1 j1 k (by omega) (by omega),
        hd1def, get_swap_ne data a pivot k (by omega) (by omega)]

theorem partEqScanI_spec (data : Array α) (a i j fuel : Nat)
    (hfuel : j + 2 ≤ i + fuel) (hij : i ≤ j + 1) :
    i ≤ partEqScanI less data a i j fuel ∧ partEqScanI less data a i j fuel ≤ j + 1 ∧
    (∀ k, i ≤ k → k < partEqScanI less data a i j fuel →
      less (get data a) (get data k) = false) ∧
    (partEqScanI less data a i j fuel ≤ j →
      less (get data a) (get data (partEqScanI less data a i j fuel)) = true) := by
  induction fuel generalizing i with
  | zero => exfalso; omega
  | succ fuel ih =>
    rw [partEqScanI]
    split
    · next hcond =>
      obtain ⟨ih1, ih2, ih3, ih4⟩ := ih (i + 1) (by omega) (by omega)
      refine ⟨by omega, ih2, ?_, ih4⟩
      intro k hk1 hk2
      by_cases hk : k = i
      · subst hk
        cases hl : less (get data a) (get data k)
        · rfl
        · exact absurd hl (by simpa using hcond.2)
      · exact ih3 k (by omega) hk2
    · next hcond =>
      refine ⟨le_rfl, hij, by omega, ?_⟩
      intro hj
      cases hl : less (get data a) (get data i)
      · exact absurd ⟨hj, by simp [hl]⟩ hcond
      · rfl

theorem partEqScanJ_spec (data : Array α) (a i : Nat) (hi : 1 ≤ i) :
    ∀ (fuel j : Nat), j + 1 ≤ fuel → i ≤ j + 1 →
    i - 1 ≤ partEqScanJ less data a i j fuel ∧ partEqScanJ less data a i j fuel ≤ j ∧
    (∀ k, partEqScanJ less data a i j fuel < k → k ≤ j →
      less (get data a) (get data k) = true) ∧
    (i ≤ partEqScanJ less data a i j fuel →
      less (get data a) (get data (partEqScanJ less data a i j fuel)) = false) := by
  intro fuel
  induction fuel with
  | zero => intro j hfuel hij0; exfalso; omega
  | succ fuel ih =>
    intro j hfuel hij0
    rw [partEqScanJ]
    split
    · next hcond =>
      obtain ⟨hij', hless⟩ := hcond
      have hj1 : 1 ≤ j := by omega
      obtain ⟨ih1, ih2, ih3, ih4⟩ := ih (j - 1) (by omega) (by omega)
      refine ⟨ih1, by omega, ?_, ih4⟩
      intro k hk1 hk2
      by_cases hk : k = j
      · subst hk
        exact hless
      · exact ih3 k hk1 (by omega)
    · next hcond =>
      refine ⟨by omega, le_rfl, by omega, ?_⟩
      intro hij2
      cases hl : less (get data a) (get data j)
      · rfl
      · exact absurd ⟨hij2, hl⟩ hcond

theorem partEqLoop_spec (a B : Nat) (p : α) :
    ∀ (fuel : Nat) (data : Array α) (i j : Nat),
      j + 2 ≤ i + fuel → a + 1 ≤ i → i ≤ j + 1 → j ≤ B → B < data.size →
      get data a = p →
      (∀ k, a + 1 ≤ k → k < i → less p (get data k) = false) →
      (∀ k, j < k → k ≤ B → less p (get data k) = true) →
      (i ≤ (partEqLoop less data a i j fuel).2 ∧ (partEqLoop less data a i j fuel).2 ≤ j + 1) ∧
      get (partEqLoop less data a i j fuel).1 a = p ∧
      (∀ k, a + 1 ≤ k → k < (partEqLoop less data a i j fuel).2 →
        less p (get (partEqLoop less data a i j fuel).1 k) = false) ∧
      (∀ k, (partEqLoop less data a i j fuel).2 ≤ k → k ≤ B →
        less p (get (partEqLoop less data a i j fuel).1 k) = true) ∧
      (∀ k, k < i ∨ j < k → get (partEqLoop less data a i j fuel).1 k = get data k) := by
  intro fuel
  induction fuel with
  | zero =>
    intro data i j hfuel hai hij hjB hB hp hL hR
    exfalso; omega
  | succ fuel ih =>
    intro data i j hfuel hai hij hjB hB hp hL hR
    simp only [partEqLoop]
    have hSI := partEqScanI_spec less data a i j (j + 2) (by omega) hij
    obtain ⟨hSI1, hSI2, hSI3, hSI4⟩ := hSI
    rw [hp] at hSI3 hSI4
    have hSJ := partEqScanJ_spec less data a (partEqScanI less data a i j (j + 2))
      (by omega) (j + 1) j (by omega) hSI2
    obtain ⟨hSJ1, hSJ2, hSJ3, hSJ4⟩ := hSJ
    rw [hp] at hSJ3 hSJ4
    set i1 := partEqScanI less data a i j (j + 2) with hi1def
    set j1 := partEqScanJ less data a i1 j (j + 1) with hj1def
    split
    · next hcross =>
      refine ⟨⟨hSI1, hSI2⟩, hp, ?_, ?_, fun k _ => rfl⟩
      · intro k hk1 hk2
        by_cases hk : k < i
        · exact hL k hk1 hk
        · exact hSI3 k (by omega) hk2
      · intro k hk1 hk2
        by_cases hk : k ≤ j
        · exact hSJ3 k (by omega) hk
        · exact hR k (by omega) hk2
    · next hcross =>
      have hle : i1 ≤ j1 := by omega
      have hlt : i1 < j1 := by
        rcases Nat.lt_or_ge i1 j1 with h | h
        · exact h
        · have he : i1 = j1 := by omega
          have h4 := hSJ4 hle
          have h5 := hSI4 (by omega)
          rw [← he] at h4
          rw [h5] at h4
          exact absurd h4 (by simp)
      have hi1s : i1 < data.size := by omega
      have hj1s : j1 < data.size := by omega
      have hrec := ih (swap data i1 j1) (i1 + 1) (j1 - 1)
        (by omega) (by omega) (by omega) (by omega)
        (by rw [size_swap']; omega)
        (by rw [get_swap_ne _ _ _ _ (by omega) (by omega)]; exact hp)
        (by
          intro k hk1 hk2
          by_cases hk : k = i1
          · subst hk
            rw [get_swap_left _ _ _ hi1s hj1s]
            exact hSJ4 hle
          · rw [get_swap_ne _ _ _ _ hk (by omega)]
            by_cases hk' : k < i
            · exact hL k hk1 hk'
            · exact hSI3 k (by omega) (by omega))
        (by
          intro k hk1 hk2
          by_cases hk : k = j1
          · subst hk
            rw [get_swap_right _ _ _ hi1s hj1s]
            exact hSI4 (by omega)
          · rw [get_swap_ne _ _ _ _ (by omega) hk]
            by_cases hk' : k ≤ j
            · exact hSJ3 k (by omega) hk'
            · exact hR k (by omega) hk2)
      obtain ⟨⟨r1a, r1b⟩, r2, r3, r4, r5⟩ := hrec
      refine ⟨⟨by omega, by omega⟩, r2, r3, r4, ?_⟩
      intro k hk
      rw [r5 k (by omega), get_swap_ne _ _ _ _ (by omega) (by omega)]

include hAsym in
theorem partitionEqual_spec (data : Array α) (a b pivot : Nat)
    (hab : a < b) (hp1 : a ≤ pivot) (hp2 : pivot < b) (hb : b ≤ data.size)
    (hNS : ∀ k, a ≤ k → k < b → less (get data k) (get data pivot) = false) :
    (a + 1 ≤ (partitionEqual less data a b pivot).2 ∧
      (partitionEqual less data a b pivot).2 ≤ b) ∧
    (∀ k, a ≤ k → k < (partitionEqual less data a b pivot).2 →
      less (get data pivot) (get (partitionEqual less data a b pivot).1 k) = false) ∧
    (∀ k, (partitionEqual less data a b pivot).2 ≤ k → k < b →
      less (get data pivot) (get (partitionEqual less data a b pivot).1 k) = true) ∧
    (∀ k, k < a ∨ b ≤ k → get (partitionEqual less data a b pivot).1 k = get data k) := by
  simp only [partitionEqual]
  have has : a < data.size := by omega
  have hps : pivot < data.size := by omega
  set d1 := swap data a pivot with hd1def
  have hsd1 : d1.size = data.size := size_swap' data a pivot
  have hp : get d1 a = get data pivot := get_swap_left data a pivot has hps
  have hPL := partEqLoop_spec less a (b - 1) (get data pivot) b d1 (a + 1) (b - 1)
    (by omega) (by omega) (by omega) (by omega) (by omega) hp
    (by intro k hk1 hk2; omega)
    (by intro k hk1 hk2; omega)
  obtain ⟨⟨r1a, r1b⟩, r2, r3, r4, r5⟩ := hPL
  refine ⟨⟨by omega, by omega⟩, ?_, ?_, ?_⟩
  · intro k hk1 hk2
    by_cases hka : k = a
    · subst hka
      rw [r2]
      exact less_irrefl less hAsym _
    · exact r3 k (by omega) hk2
  · intro k hk1 hk2
    exact r4 k hk1 (by omega)
  · intro k hk
    rw [r5 k (by omega), hd1def, get_swap_ne data a pivot k (by omega) (by omega)]

theorem scanSorted_spec (data : Array α) (b : Nat) :
    ∀ (fuel i : Nat), b ≤ i + fuel → i ≤ b →
    i ≤ scanSorted less data i b fuel ∧ scanSorted less data i b fuel ≤ b ∧
    (∀ k, i ≤ k → k < scanSorted less data i b fuel →
      less (get data k) (get data (k - 1)) = false) ∧
    (scanSorted less data i b fuel < b →
      less (get data (scanSorted less data i b fuel))
        (get data (scanSorted less data i b fuel - 1)) = true) := by
  intro fuel
  induction fuel with
  | zero =>
    intro i hfuel hib
    rw [scanSorted]
    refine ⟨le_rfl, hib, ?_, ?_⟩
    · intro k h1 h2; exact absurd h2 (by omega)
    · intro h; exact absurd h (by omega)
  | succ fuel ih =>
    intro i hfuel hib
    rw [scanSorted]
    split
    · next hcond =>
      obtain ⟨ih1, ih2, ih3, ih4⟩ := ih (i + 1) (by omega) (by omega)
      refine ⟨by omega, ih2, ?_, ih4⟩
      intro k hk1 hk2
      by_cases hk : k = i
      · subst hk
        cases hl : less (get data k) (get data (k - 1))
        · rfl
        · exact absurd hl (by simpa using hcond.2)
      · exact ih3 k (by omega) hk2
    · next hcond =>
      refine ⟨le_rfl, hib, by omega, ?_⟩
      intro hlt
      cases hl : less (get data i) (get data (i - 1))
      · exact absurd ⟨hlt, by simp [hl]⟩ hcond
      · rfl

theorem shiftRightLoop_untouched (data : Array α) (j b fuel : Nat) :
    ∀ k, k < j - 1 ∨ b ≤ k → get (shiftRightLoop less data j b fuel) k = get data k := by
  induction fuel generalizing data j with
  | zero => intro k _; rfl
  | succ fuel ih =>
    intro k hk
    rw [shiftRightLoop]
    split
    · next hcond =>
      rw [ih _ _ _ (by omega), get_swap_ne _ _ _ _ (by omega) (by omega)]
    · rfl

theorem size_shiftRightLoop (data : Array α) (j b fuel : Nat) :
    (shiftRightLoop less data j b fuel).size = data.size :=
  size_of_perm (shiftRightLoop_perm less data j b fuel)

theorem size_shiftLeftLoop (data : Array α) (j : Nat) :
    (shiftLeftLoop less data j).size = data.size :=
  size_of_perm (shiftLeftLoop_perm less data j)

include hAsym in
/-- The left shift of `partialInsertionSort`: inserting the element at `j`
into the sorted pairs of `[a, top]` (all pairs except `(j-1, j)` hold, plus
the skip pair), never crossing below `a` thanks to the predecessor bound. -/
theorem shiftLeftLoop_spec (data : Array α) (a j top : Nat)
    (hj : a ≤ j) (hjt : j ≤ top) (htop : top < data.size)
    (hpred : 0 < a → ∀ m, a ≤ m → m ≤ top → less (get data m) (get data (a - 1)) = false)
    (h1 : ∀ k, a ≤ k → k + 1 ≤ top → ¬(k + 1 = j ∧ a < j) →
      less (get data (k + 1)) (get data k) = false)
    (h2 : j < top → a < j → less (get data (j + 1)) (get data (j - 1)) = false) :
    (∀ k, a ≤ k → k + 1 ≤ top →
      less (get (shiftLeftLoop less data j) (k + 1)) (get (shiftLeftLoop less data j) k)
        = false) ∧
    (∀ k, k < a ∨ j < k → get (shiftLeftLoop less data j) k = get data k) := by
  induction j generalizing data with
  | zero =>
    rw [shiftLeftLoop]
    refine ⟨?_, fun k _ => rfl⟩
    intro k hk1 hk2
    exact h1 k hk1 hk2 (by omega)
  | succ j ih =>
    rw [shiftLeftLoop]
    split
    · next hcond =>
      -- the guard holds; show j + 1 > a using the predecessor bound
      have haj : a < j + 1 := by
        by_contra hle
        have hae : a = j + 1 := by omega
        have hp := hpred (by omega) (j + 1) (by omega) (by omega)
        rw [hae] at hp
        simp only [Nat.add_sub_cancel] at hp
        exact absurd hcond (by simp [hp])
      have hsw : j + 1 < data.size := by omega
      have hsw2 : j < data.size := by omega
      have hget : ∀ m, get (swap data (j + 1) j) m =
          if m = j + 1 then get data j else if m = j then get data (j + 1) else get data m := by
        intro m
        rw [get_swap data (j + 1) j m hsw hsw2]
      obtain ⟨c1, c2⟩ := ih (swap data (j + 1) j) (by omega) (by omega)
        (by rw [size_swap']; omega)
        (by
          intro ha0 m hm1 hm2
          have hpa : get (swap data (j + 1) j) (a - 1) = get data (a - 1) := by
            rw [hget, if_neg (by omega), if_neg (by omega)]
          rw [hpa, hget]
          by_cases hmj : m = j + 1
          · rw [if_pos hmj]
            exact hpred ha0 j (by omega) (by omega)
          · rw [if_neg hmj]
            by_cases hmj2 : m = j
            · rw [if_pos hmj2]
              exact hpred ha0 (j + 1) (by omega) (by omega)
            · rw [if_neg hmj2]
              exact hpred ha0 m hm1 hm2)
        (by
          intro k hk1 hk2 hk3
          have hk3' : k + 1 ≠ j := fun he => hk3 ⟨he, by omega⟩
          by_cases hkj : k + 1 = j + 1
          · have hkj' : k = j := by omega
            subst hkj'
            rw [hget, hget, if_pos rfl, if_neg (by omega), if_pos rfl]
            exact hAsym _ _ hcond
          · by_cases hkj2 : k + 1 = j + 2
            · have hk' : k = j + 1 := by omega
              subst hk'
              rw [hget, hget, if_neg (by omega), if_neg (by omega), if_pos rfl]
              simpa using h2 (by omega) (by omega)
            · rw [hget, hget, if_neg hkj, if_neg hk3', if_neg (by omega), if_neg (by omega)]
              exact h1 k hk1 hk2 (by omega))
        (by
          intro hjt2 haj2
          rw [hget, hget, if_pos rfl, if_neg (by omega), if_neg (by omega)]
          have := h1 (j - 1) (by omega) (by omega) (by omega)
          simpa [Nat.sub_add_cancel (by omega : 1 ≤ j)] using this)
      refine ⟨c1, ?_⟩
      intro k hk
      rw [c2 k (by omega), hget, if_neg (by omega), if_neg (by omega)]
    · next hcond =>
      refine ⟨?_, fun k _ => rfl⟩
      intro k hk1 hk2
      by_cases hkj : k + 1 = j + 1 ∧ a < j + 1
      · have hp : less (get data (j + 1)) (get data j) = false := by
          cases hl : less (get data (j + 1)) (get data j)
          · rfl
          · exact absurd hl (by simpa using hcond)
        have hk' : k = j := by omega
        subst hk'
        exact hp
      · exact h1 k hk1 hk2 hkj

include hAsym in
/-- Outer loop of `partialInsertionSort`: when it returns `true` the range
`[a, b)` is sorted, and elements outside `[a, b)` are never touched. -/
theorem partInsLoop_spec (a b : Nat) :
    ∀ (steps : Nat) (data : Array α) (i : Nat),
    a + 1 ≤ i → i ≤ b → b ≤ data.size →
    (0 < a → ∀ m, a ≤ m → m < b → less (get data m) (get data (a - 1)) = false) →
    (∀ k, a + 1 ≤ k → k < i → less (get data k) (get data (k - 1)) = false) →
    ((partInsLoop less data a b i steps).2 = true →
      sortedRange less (partInsLoop less data a b i steps).1 a b) ∧
    (∀ k, k < a ∨ b ≤ k → get (partInsLoop less data a b i steps).1 k = get data k) := by
  intro steps
  induction steps with
  | zero =>
    intro data i hi1 hi2 hb hpred hinv
    refine ⟨?_, fun k _ => rfl⟩
    intro h
    rw [partInsLoop] at h
    simp at h
  | succ steps ih =>
    intro data i hi1 hi2 hb hpred hinv
    simp only [partInsLoop]
    obtain ⟨hs1, hs2, hs3, hs4⟩ := scanSorted_spec less data b (b + 1) i (by omega) hi2
    set i' := scanSorted less data i b (b + 1) with hi'
    by_cases hib : i' = b
    · rw [if_pos hib]
      refine ⟨?_, fun k _ => rfl⟩
      intro _
      intro k hk1 hk2
      by_cases hki : k + 1 < i
      · simpa using hinv (k + 1) (by omega) (by omega)
      · simpa using hs3 (k + 1) (by omega) (by omega)
    · rw [if_neg hib]
      by_cases hba : b - a < 50
      · rw [if_pos hba]
        refine ⟨?_, fun k _ => rfl⟩
        intro h
        simp at h
      · rw [if_neg hba]
        have hi'b : i' < b := by omega
        have hlt := hs4 hi'b
        have hi'a : a + 1 ≤ i' := by omega
        have hpairs : ∀ k, a + 1 ≤ k → k < i' →
            less (get data k) (get data (k - 1)) = false := by
          intro k h1 h2
          by_cases hk : k < i
          · exact hinv k h1 hk
          · exact hs3 k (by omega) h2
        set data1 := swap data i' (i' - 1) with hd1
        set data2 := (if i' - a ≥ 2 then shiftLeftLoop less data1 (i' - 1) else data1) with hd2
        set data3 := (if b - i' ≥ 2 then shiftRightLoop less data2 (i' + 1) b (b + 1)
          else data2) with hd3
        have hsz1 : data1.size = data.size := size_swap' data i' (i' - 1)
        have hget1 : ∀ m, get data1 m =
            if m = i' then get data (i' - 1) else if m = i' - 1 then get data i'
            else get data m := by
          intro m
          rw [hd1]
          exact get_swap data i' (i' - 1) m (by omega) (by omega)
        have claimA : (∀ k, a ≤ k → k + 1 ≤ i' - 1 →
            less (get data2 (k + 1)) (get data2 k) = false) ∧
            (∀ k, k < a ∨ i' - 1 < k → get data2 k = get data1 k) := by
          rw [hd2]
          split
          · next hc =>
            refine shiftLeftLoop_spec less hAsym data1 a (i' - 1) (i' - 1)
              (by omega) le_rfl (by omega) ?_ ?_ ?_
            · intro ha0 m hm1 hm2
              have ha1 : get data1 (a - 1) = get data (a - 1) := by
                rw [hget1, if_neg (by omega), if_neg (by omega)]
              rw [ha1, hget1]
              rw [if_neg (by omega)]
              by_cases hmi : m = i' - 1
              · rw [if_pos hmi]
                exact hpred ha0 i' (by omega) (by omega)
              · rw [if_neg hmi]
                exact hpred ha0 m hm1 (by omega)
            · intro k hk1 hk2 hk3
              have hne : k + 1 ≠ i' - 1 := fun he => hk3 ⟨he, by omega⟩
              rw [hget1, hget1, if_neg (by omega), if_neg hne, if_neg (by omega),
                if_neg (by omega)]
              simpa using hpairs (k + 1) (by omega) (by omega)
            · intro h
              exact absurd h (lt_irrefl _)
          · next hc =>
            refine ⟨?_, fun k _ => rfl⟩
            intro k hk1 hk2
            exact absurd (by omega : i' - a ≥ 2) hc
        have claimB : ∀ k, k < i' ∨ b ≤ k → get data3 k = get data2 k := by
          rw [hd3]
          split
          · intro k hk
            exact shiftRightLoop_untouched less data2 (i' + 1) b (b + 1) k (by omega)
          · intro k _
            rfl
        have hperm1 : data1.toList.Perm data.toList := swap_perm data i' (i' - 1)
        have hperm2 : data2.toList.Perm data1.toList := by
          rw [hd2]
          split
          · exact shiftLeftLoop_perm less data1 (i' - 1)
          · exact List.Perm.refl _
        have hperm3 : data3.toList.Perm data2.toList := by
          rw [hd3]
          split
          · exact shiftRightLoop_perm less data2 (i' + 1) b (b + 1)
          · exact List.Perm.refl _
        have hperm : data3.toList.Perm data.toList := (hperm3.trans hperm2).trans hperm1
        have hsz3 : data3.size = data.size := size_of_perm hperm
        have hun1 : ∀ k, k < a ∨ b ≤ k → get data1 k = get data k := by
          intro k hk
          rw [hget1, if_neg (by omega), if_neg (by omega)]
        have hun : ∀ k, k < a ∨ b ≤ k → get data3 k = get data k := by
          intro k hk
          rw [claimB k (by omega), claimA.2 k (by omega), hun1 k hk]
        have hpred3 : 0 < a → ∀ m, a ≤ m → m < b →
            less (get data3 m) (get data3 (a - 1)) = false := by
          intro ha0
          have ha1 : get data3 (a - 1) = get data (a - 1) := hun (a - 1) (Or.inl (by omega))
          rw [ha1]
          exact transport_forall_range hperm hsz3 hb hun
            (fun x => less x (get data (a - 1)) = false) (hpred ha0)
        have hinv3 : ∀ k, a + 1 ≤ k → k < i' →
            less (get data3 k) (get data3 (k - 1)) = false := by
          intro k hk1 hk2
          rw [claimB k (Or.inl hk2), claimB (k - 1) (Or.inl (by omega))]
          have := claimA.1 (k - 1) (by omega) (by omega)
          have hk1' : k - 1 + 1 = k := by omega
          rw [hk1'] at this
          exact this
        obtain ⟨r1, r2⟩ := ih data3 i' hi'a (by omega) (by rw [hsz3]; exact hb) hpred3 hinv3
        refine ⟨r1, ?_⟩
        intro k hk
        rw [r2 k hk, hun k hk]

include hAsym in
theorem partInsertionSort_spec (data : Array α) (a b : Nat)
    (hab : a < b) (hb : b ≤ data.size)
    (hpred : 0 < a → ∀ m, a ≤ m → m < b → less (get data m) (get data (a - 1)) = false) :
    ((partInsertionSort less data a b).2 = true →
      sortedRange less (partInsertionSort less data a b).1 a b) ∧
    (∀ k, k < a ∨ b ≤ k → get (partInsertionSort less data a b).1 k = get data k) := by
  have := partInsLoop_spec less hAsym a b 5 data (a + 1) le_rfl (by omega) hb hpred
    (by intro k h1 h2; omega)
  exact this

include hAsym hTransNeg in
/-- `siftDown` restores the max-heap property on the pairs with parent index
at least `t` (heap indices are offsets from `first`), touching only the
positions `first + t` through `first + hi - 1`. -/
theorem siftDownLoop_spec (first hi t : Nat) :
    ∀ (fuel : Nat) (data : Array α) (root : Nat), t ≤ root → hi ≤ 2 * root + 1 + fuel →
    first + hi ≤ data.size →
    (∀ r c, c < hi → (c = 2 * r + 1 ∨ c = 2 * r + 2) → t ≤ r → r ≠ root →
      less (get data (first + r)) (get data (first + c)) = false) →
    (∀ p c, (root = 2 * p + 1 ∨ root = 2 * p + 2) → t ≤ p → c < hi →
      (c = 2 * root + 1 ∨ c = 2 * root + 2) →
      less (get data (first + p)) (get data (first + c)) = false) →
    (∀ r c, c < hi → (c = 2 * r + 1 ∨ c = 2 * r + 2) → t ≤ r →
      less (get (siftDownLoop less data root hi first fuel) (first + r))
        (get (siftDownLoop less data root hi first fuel) (first + c)) = false) ∧
    (∀ m, m < first + t ∨ first + hi ≤ m →
      get (siftDownLoop less data root hi first fuel) m = get data m) := by
  intro fuel
  induction fuel with
  | zero =>
    intro data root htr hfuel hsz H Hv
    rw [siftDownLoop]
    refine ⟨?_, fun m _ => rfl⟩
    intro r c hc hrel htr2
    by_cases hr : r = root
    · exfalso; omega
    · exact H r c hc hrel htr2 hr
  | succ fuel ih =>
    intro data root htr hfuel hsz H Hv
    rw [siftDownLoop]
    by_cases hguard : 2 * root + 1 < hi
    · rw [if_pos hguard]
      by_cases hsel : 2 * root + 2 < hi ∧
          less (get data (first + (2 * root + 1))) (get data (first + (2 * root + 2))) = true
      · rw [if_pos (by simpa using hsel)]
        by_cases hlt : less (get data (first + root)) (get data (first + (2 * root + 2))) = true
        · rw [if_pos hlt]
          have hgetS : ∀ x : Nat,
              get (swap data (first + root) (first + (2 * root + 2))) (first + x) =
              if x = root then get data (first + (2 * root + 2))
              else if x = 2 * root + 2 then get data (first + root)
              else get data (first + x) := by
            intro x
            rw [get_swap data (first + root) (first + (2 * root + 2)) (first + x)
              (by omega) (by omega)]
            by_cases h1 : x = root
            · rw [if_pos (by omega), if_pos h1]
            · rw [if_neg (by omega), if_neg h1]
              by_cases h2 : x = 2 * root + 2
              · rw [if_pos (by omega), if_pos h2]
              · rw [if_neg (by omega), if_neg h2]
          obtain ⟨c1, c2⟩ := ih (swap data (first + root) (first + (2 * root + 2)))
            (2 * root + 2) (by omega) (by omega) (by rw [size_swap']; exact hsz)
            (by
              intro r c hc hrel htr2 hrne
              rw [hgetS r, hgetS c]
              by_cases hr : r = root
              · rw [if_pos hr]
                by_cases hcch : c = 2 * root + 2
                · rw [if_neg (by omega), if_pos hcch]
                  exact hAsym _ _ hlt
                · rw [if_neg (by omega), if_neg hcch]
                  have hcs : c = 2 * root + 1 := by omega
                  rw [hcs]
                  exact hAsym _ _ hsel.2
              · rw [if_neg hr, if_neg hrne]
                by_cases hcr : c = root
                · rw [if_pos hcr]
                  have hrel2 : root = 2 * r + 1 ∨ root = 2 * r + 2 := by omega
                  exact Hv r (2 * root + 2) hrel2 htr2 (by omega) (by omega)
                · rw [if_neg hcr]
                  by_cases hcch : c = 2 * root + 2
                  · exfalso; omega
                  · rw [if_neg hcch]
                    exact H r c hc hrel htr2 hr)
            (by
              intro p c hprel htp hc hcrel
              have hp : p = root := by omega
              rw [hgetS p, hgetS c, if_pos hp, if_neg (by omega), if_neg (by omega)]
              exact H (2 * root + 2) c hc (by omega) (by omega) (by omega))
          refine ⟨c1, ?_⟩
          intro m hm
          rw [c2 m hm, get_swap_ne data (first + root) (first + (2 * root + 2)) m
            (by omega) (by omega)]
        · rw [if_neg hlt]
          refine ⟨?_, fun m _ => rfl⟩
          intro r c hc hrel htr2
          by_cases hr : r = root
          · subst hr
            have hlt' : less (get data (first + r)) (get data (first + (2 * r + 2)))
                = false := by
              cases hx : less (get data (first + r)) (get data (first + (2 * r + 2)))
              · rfl
              · exact absurd hx hlt
            by_cases hcch : c = 2 * r + 2
            · rw [hcch]; exact hlt'
            · have hcs : c = 2 * r + 1 := by omega
              rw [hcs]
              exact hTransNeg _ _ _ hlt' (hAsym _ _ hsel.2)
          · exact H r c hc hrel htr2 hr
      · rw [if_neg (by simpa using hsel)]
        by_cases hlt : less (get data (first + root)) (get data (first + (2 * root + 1))) = true
        · rw [if_pos hlt]
          have hgetS : ∀ x : Nat,
              get (swap data (first + root) (first + (2 * root + 1))) (first + x) =
              if x = root then get data (first + (2 * root + 1))
              else if x = 2 * root + 1 then get data (first + root)
              else get data (first + x) := by
            intro x
            rw [get_swap data (first + root) (first + (2 * root + 1)) (first + x)
              (by omega) (by omega)]
            by_cases h1 : x = root
            · rw [if_pos (by omega), if_pos h1]
            · rw [if_neg (by omega), if_neg h1]
              by_cases h2 : x = 2 * root + 1
              · rw [if_pos (by omega), if_pos h2]
              · rw [if_neg (by omega), if_neg h2]
          obtain ⟨c1, c2⟩ := ih (swap data (first + root) (first + (2 * root + 1)))
            (2 * root + 1) (by omega) (by omega) (by rw [size_swap']; exact hsz)
            (by
              intro r c hc hrel htr2 hrne
              rw [hgetS r, hgetS c]
              by_cases hr : r = root
              · rw [if_pos hr]
                by_cases hcch : c = 2 * root + 1
                · rw [if_neg (by omega), if_pos hcch]
                  exact hAsym _ _ hlt
                · rw [if_neg (by omega), if_neg hcch]
                  have hcs : c = 2 * root + 2 := by omega
                  have hns : less (get data (first + (2 * root + 1)))
                      (get data (first + (2 * root + 2))) = false := by
                    cases hx : less (get data (first + (2 * root + 1)))
                        (get data (first + (2 * root + 2)))
                    · rfl
                    · exact absurd ⟨by omega, hx⟩ hsel
                  rw [hcs]
                  exact hns
              · rw [if_neg hr, if_neg hrne]
                by_cases hcr : c = root
                · rw [if_pos hcr]
                  have hrel2 : root = 2 * r + 1 ∨ root = 2 * r + 2 := by omega
                  exact Hv r (2 * root + 1) hrel2 htr2 (by omega) (by omega)
                · rw [if_neg hcr]
                  by_cases hcch : c = 2 * root + 1
                  · exfalso; omega
                  · rw [if_neg hcch]
                    exact H r c hc hrel htr2 hr)
            (by
              intro p c hprel htp hc hcrel
              have hp : p = root := by omega
              rw [hgetS p, hgetS c, if_pos hp, if_neg (by omega), if_neg (by omega)]
              exact H (2 * root + 1) c hc (by omega) (by omega) (by omega))
          refine ⟨c1, ?_⟩
          intro m hm
          rw [c2 m hm, get_swap_ne data (first + root) (first + (2 * root + 1)) m
            (by omega) (by omega)]
        · rw [if_neg hlt]
          refine ⟨?_, fun m _ => rfl⟩
          intro r c hc hrel htr2
          by_cases hr : r = root
          · subst hr
            have hlt' : less (get data (first + r)) (get data (first + (2 * r + 1)))
                = false := by
              cases hx : less (get data (first + r)) (get data (first + (2 * r + 1)))
              · rfl
              · exact absurd hx hlt
            by_cases hcch : c = 2 * r + 1
            · rw [hcch]; exact hlt'
            · have hcs : c = 2 * r + 2 := by omega
              have hns : less (get data (first + (2 * r + 1)))
                  (get data (first + (2 * r + 2))) = false := by
                cases hx : less (get data (first + (2 * r + 1)))
                    (get data (first + (2 * r + 2)))
                · rfl
                · exact absurd ⟨by omega, hx⟩ hsel
              rw [hcs]
              exact hTransNeg _ _ _ hlt' hns
          · exact H r c hc hrel htr2 hr
    · rw [if_neg hguard]
      refine ⟨?_, fun m _ => rfl⟩
      intro r c hc hrel htr2
      by_cases hr : r = root
      · exfalso; omega
      · exact H r c hc hrel htr2 hr

include hAsym hTransNeg in
/-- The first `heapSort` loop builds a max-heap on `[first, first + hi)`:
once the loop has run for roots `i1 - 1` down to `0`, every parent dominates
its children. -/
theorem heapBuild_spec (hi first : Nat) :
    ∀ (i1 : Nat) (data : Array α), first + hi ≤ data.size →
    (∀ r c, c < hi → (c = 2 * r + 1 ∨ c = 2 * r + 2) → i1 ≤ r →
      less (get data (first + r)) (get data (first + c)) = false) →
    (∀ r c, c < hi → (c = 2 * r + 1 ∨ c = 2 * r + 2) →
      less (get (heapBuild less data i1 hi first) (first + r))
        (get (heapBuild less data i1 hi first) (first + c)) = false) ∧
    (∀ m, m < first ∨ first + hi ≤ m →
      get (heapBuild less data i1 hi first) m = get data m) := by
  intro i1
  induction i1 with
  | zero =>
    intro data hsz Hp
    rw [heapBuild]
    exact ⟨fun r c hc hrel => Hp r c hc hrel (Nat.zero_le r), fun m _ => rfl⟩
  | succ i ih =>
    intro data hsz Hp
    rw [heapBuild]
    obtain ⟨s1, s2⟩ := siftDownLoop_spec less hAsym hTransNeg first hi i (hi + 1) data i
      le_rfl (by omega) hsz
      (fun r c hc hrel htr hrne => Hp r c hc hrel (by omega))
      (fun p c hprel htp hc hcrel => by exfalso; omega)
    obtain ⟨b1, b2⟩ := ih (siftDownLoop less data i hi first (hi + 1))
      (by rw [size_of_perm (siftDownLoop_perm less data i hi first (hi + 1))]; exact hsz)
      s1
    refine ⟨b1, ?_⟩
    intro m hm
    rw [b2 m hm, s2 m (by omega)]

include hAsym hTransNeg in
/-- In a max-heap the root dominates every element. -/
theorem heap_root_max (data : Array α) (first n : Nat)
    (H : ∀ r c, c < n → (c = 2 * r + 1 ∨ c = 2 * r + 2) →
      less (get data (first + r)) (get data (first + c)) = false) :
    ∀ m, m < n → less (get data first) (get data (first + m)) = false := by
  intro m
  induction m using Nat.strong_induction_on with
  | _ m ih =>
    intro hm
    by_cases hm0 : m = 0
    · subst hm0
      exact less_irrefl less hAsym (get data first)
    · have hrel : m = 2 * ((m - 1) / 2) + 1 ∨ m = 2 * ((m - 1) / 2) + 2 := by omega
      have hp := H ((m - 1) / 2) m hm hrel
      have hih := ih ((m - 1) / 2) (by omega) (by omega)
      exact hTransNeg _ _ _ hih hp

include hAsym hTransNeg in
/-- The second `heapSort` loop: popping the heap maximum into the end of the
range, `hi0 - i1` times already done, leaves `[first, first + hi0)` sorted once
`i1` reaches `0`.  The hypotheses say: `[0, i1)` is still a max-heap, the
already-popped suffix is sorted, and every suffix element dominates every
heap element. -/
theorem heapPop_spec (first hi0 : Nat) :
    ∀ (i1 : Nat) (data : Array α), i1 ≤ hi0 → first + hi0 ≤ data.size →
    (∀ r c, c < i1 → (c = 2 * r + 1 ∨ c = 2 * r + 2) →
      less (get data (first + r)) (get data (first + c)) = false) →
    (∀ k, first + i1 ≤ k → k + 1 < first + hi0 →
      less (get data (k + 1)) (get data k) = false) →
    (∀ k, first + i1 ≤ k → k < first + hi0 → ∀ m, m < i1 →
      less (get data k) (get data (first + m)) = false) →
    (∀ k, first ≤ k → k + 1 < first + hi0 →
      less (get (heapPop less data i1 first) (k + 1))
        (get (heapPop less data i1 first) k) = false) ∧
    (∀ m, m < first ∨ first + i1 ≤ m → get (heapPop less data i1 first) m = get data m) := by
  intro i1
  induction i1 with
  | zero =>
    intro data hih hsz Hheap Hsorted Hbound
    rw [heapPop]
    exact ⟨fun k hk1 hk2 => Hsorted k (by omega) hk2, fun m _ => rfl⟩
  | succ i ih =>
    intro data hih hsz Hheap Hsorted Hbound
    rw [heapPop]
    have hfs : first < data.size := by omega
    have hfis : first + i < data.size := by omega
    have hgd1 : ∀ x, get (swap data first (first + i)) x =
        if x = first then get data (first + i) else if x = first + i then get data first
        else get data x := fun x => get_swap data first (first + i) x hfs hfis
    have hgd1' : ∀ k, first + i ≤ k →
        get (swap data first (first + i)) k =
        if k = first + i then get data first else get data k := by
      intro k hk
      by_cases hki : k = first + i
      · rw [if_pos hki, hgd1 k]
        by_cases hkf : k = first
        · rw [if_pos hkf]
          have hi0' : i = 0 := by omega
          simp [hi0']
        · rw [if_neg hkf, if_pos hki]
      · rw [if_neg hki, hgd1 k, if_neg (by omega), if_neg hki]
    obtain ⟨s1, s2⟩ := siftDownLoop_spec less hAsym hTransNeg first i 0 (i + 1)
      (swap data first (first + i)) 0 le_rfl (by omega) (by rw [size_swap']; omega)
      (by
        intro r c hc hrel htr hrne
        rw [hgd1 (first + r), hgd1 (first + c), if_neg (by omega), if_neg (by omega),
          if_neg (by omega), if_neg (by omega)]
        exact Hheap r c (by omega) hrel)
      (by intro p c hprel htp hc hcrel; exfalso; omega)
    have hs2' : ∀ m, m < first ∨ first + i ≤ m →
        get (siftDownLoop less (swap data first (first + i)) 0 i first (i + 1)) m =
        get (swap data first (first + i)) m := by
      intro m hm
      exact s2 m (by omega)
    have hroot := heap_root_max less hAsym hTransNeg data first (i + 1) Hheap
    have hperm1 : (siftDownLoop less (swap data first (first + i)) 0 i first
        (i + 1)).toList.Perm (swap data first (first + i)).toList :=
      siftDownLoop_perm less (swap data first (first + i)) 0 i first (i + 1)
    have hsz2 : (siftDownLoop less (swap data first (first + i)) 0 i first (i + 1)).size
        = data.size := by
      rw [size_of_perm hperm1, size_swap']
    obtain ⟨r1, r2⟩ := ih (siftDownLoop less (swap data first (first + i)) 0 i first (i + 1))
      (by omega) (by omega)
      (fun r c hc hrel => s1 r c hc hrel (Nat.zero_le r))
      (by
        intro k hk1 hk2
        rw [hs2' (k + 1) (by omega), hs2' k (by omega), hgd1' (k + 1) (by omega),
          hgd1' k (by omega)]
        rw [if_neg (by omega)]
        by_cases hki : k = first + i
        · rw [if_pos hki]
          have := Hbound (k + 1) (by omega) (by omega) 0 (by omega)
          simpa using this
        · rw [if_neg hki]
          exact Hsorted k (by omega) hk2)
      (by
        intro k hk1 hk2 m hm
        rw [hs2' k (by omega)]
        have htrans := transport_forall_range (a := first) (b := first + i) hperm1
          (by rw [size_of_perm hperm1]) (by rw [size_swap']; omega) hs2'
          (fun x => less (get (swap data first (first + i)) k) x = false)
          (by
            intro j hj1 hj2
            rw [hgd1' k hk1, hgd1 j]
            by_cases hki : k = first + i
            · rw [if_pos hki]
              by_cases hjf : j = first
              · rw [if_pos hjf]
                exact hroot i (by omega)
              · rw [if_neg hjf, if_neg (by omega)]
                have := hroot (j - first) (by omega)
                have hje : first + (j - first) = j := by omega
                rw [hje] at this
                exact this
            · rw [if_neg hki]
              by_cases hjf : j = first
              · rw [if_pos hjf]
                exact Hbound k (by omega) hk2 i (by omega)
              · rw [if_neg hjf, if_neg (by omega)]
                have := Hbound k (by omega) hk2 (j - first) (by omega)
                have hje : first + (j - first) = j := by omega
                rw [hje] at this
                exact this)
        exact htrans (first + m) (by omega) (by omega))
    refine ⟨r1, ?_⟩
    intro m hm
    rw [r2 m (by omega), hs2' m (by omega),
      get_swap_ne data first (first + i) m (by omega) (by omega)]

include hAsym hTransNeg in
/-- Go `heapSort_func` sorts `[a, b)` and touches nothing outside it. -/
theorem heapSort_spec (data : Array α) (a b : Nat) (hab : a ≤ b) (hb : b ≤ data.size) :
    sortedRange less (heapSort less data a b) a b ∧
    (∀ m, m < a ∨ b ≤ m → get (heapSort less data a b) m = get data m) := by
  simp only [heapSort]
  have he : a + (b - a) = b := by omega
  obtain ⟨b1, b2⟩ := heapBuild_spec less hAsym hTransNeg (b - a) a ((b - a - 1) / 2 + 1) data
    (by omega) (fun r c hc hrel hr => by exfalso; omega)
  obtain ⟨p1, p2⟩ := heapPop_spec less hAsym hTransNeg a (b - a) (b - a)
    (heapBuild less data ((b - a - 1) / 2 + 1) (b - a) a) le_rfl
    (by rw [size_of_perm (heapBuild_perm less data ((b - a - 1) / 2 + 1) (b - a) a)]; omega)
    (fun r c hc hrel => b1 r c hc hrel)
    (fun k hk1 hk2 => by exfalso; omega)
    (fun k hk1 hk2 m hm => by exfalso; omega)
  constructor
  · intro k hk1 hk2
    exact p1 k hk1 (by omega)
  · intro m hm
    rw [p2 m (by omega), b2 m (by omega)]

theorem reverseRangeLoop_untouched : ∀ (fuel : Nat) (data : Array α) (i j : Nat),
    ∀ m, m < i ∨ j < m → get (reverseRangeLoop data i j fuel) m = get data m := by
  intro fuel
  induction fuel with
  | zero => intro data i j m hm; rfl
  | succ fuel ih =>
    intro data i j m hm
    rw [reverseRangeLoop]
    split
    · rw [ih _ _ _ m (by omega), get_swap_ne data i j m (by omega) (by omega)]
    · rfl

theorem reverseRange_untouched (data : Array α) (a b : Nat) :
    ∀ m, m < a ∨ b ≤ m → get (reverseRange data a b) m = get data m := by
  intro m hm
  by_cases hb : b = 0
  · subst hb
    rfl
  · exact reverseRangeLoop_untouched b data a (b - 1) m (by omega)

theorem bitsLenAux_zero (fuel : Nat) : bitsLenAux fuel 0 = 0 := by
  cases fuel <;> rfl

theorem bitsLenAux_succ (fuel n : Nat) :
    bitsLenAux (fuel + 1) (n + 1) = bitsLenAux fuel ((n + 1) / 2) + 1 := rfl

theorem two_pow_bitsLenAux_le : ∀ (fuel n : Nat), 1 ≤ n → n ≤ fuel →
    2 ^ bitsLenAux fuel n ≤ 2 * n := by
  intro fuel
  induction fuel with
  | zero => intro n h1 h2; exfalso; omega
  | succ fuel ih =>
    intro n h1 h2
    obtain ⟨n', rfl⟩ : ∃ n', n = n' + 1 := ⟨n - 1, by omega⟩
    rw [bitsLenAux_succ, pow_succ]
    by_cases hn : n' = 0
    · subst hn
      norm_num [bitsLenAux_zero]
    · have := ih ((n' + 1) / 2) (by omega) (by omega)
      omega

theorem nextPowerOfTwo_le_two_mul (l : Nat) (hl : 1 ≤ l) : nextPowerOfTwo l ≤ 2 * l := by
  have h := two_pow_bitsLenAux_le l l hl le_rfl
  simpa [nextPowerOfTwo, goBitsLen, Nat.shiftLeft_eq] using h

theorem breakLoop_untouched (a length modulus idx : Nat) (hmod : modulus ≤ 2 * length)
    (hlen : 1 ≤ length) :
    ∀ (rem : Nat) (data : Array α) (rand i : Nat), a + 1 ≤ idx →
    idx - 1 + i + rem ≤ a + length →
    ∀ m, m < a ∨ a + length ≤ m →
    get (breakLoop data a length modulus idx rand i rem) m = get data m := by
  intro rem
  induction rem with
  | zero => intro data rand i hidx hbound m hm; rfl
  | succ rem ih =>
    intro data rand i hidx hbound m hm
    rw [breakLoop]
    have hw : xorshiftNext rand &&& (modulus - 1) ≤ modulus - 1 := Nat.and_le_right
    have hother : (if xorshiftNext rand &&& (modulus - 1) ≥ length
        then (xorshiftNext rand &&& (modulus - 1)) - length
        else xorshiftNext rand &&& (modulus - 1)) < length := by
      split <;> omega
    rw [ih _ _ _ (by omega) (by omega) m hm,
      get_swap_ne _ _ _ m (by omega) (by omega)]

theorem breakPatterns_untouched (data : Array α) (a b : Nat) :
    ∀ m, m < a ∨ b ≤ m → get (breakPatterns data a b) m = get data m := by
  intro m hm
  simp only [breakPatterns]
  split
  · next h8 =>
    have h2l := nextPowerOfTwo_le_two_mul (b - a) (by omega)
    have := breakLoop_untouched a (b - a) (nextPowerOfTwo (b - a))
      (a + (b - a) / 4 * 2 - 1) h2l (by omega) 3 data ((b - a) % 2 ^ 64) 0
      (by omega) (by omega) m (by omega)
    exact this
  · rfl

theorem mkHint_fst (pivot swaps : Nat) : (mkHint pivot swaps).1 = pivot := by
  rw [mkHint]
  split
  · rfl
  · split <;> rfl

theorem order2_fst_mem (data : Array α) (a b s : Nat) :
    (order2 less data a b s).1 = a ∨ (order2 less data a b s).1 = b := by
  rw [order2]
  split
  · exact Or.inr rfl
  · exact Or.inl rfl

theorem order2_snd_mem (data : Array α) (a b s : Nat) :
    (order2 less data a b s).2.1 = a ∨ (order2 less data a b s).2.1 = b := by
  rw [order2]
  split
  · exact Or.inl rfl
  · exact Or.inr rfl

theorem median_mem (data : Array α) (a b c s : Nat) :
    (median less data a b c s).1 = a ∨ (median less data a b c s).1 = b ∨
    (median less data a b c s).1 = c := by
  simp only [median]
  rcases order2_snd_mem less data (order2 less data a b s).1
      (order2 less data (order2 less data a b s).2.1 c (order2 less data a b s).2.2).1
      (order2 less data (order2 less data a b s).2.1 c (order2 less data a b s).2.2).2.2
      with h | h
  · rw [h]
    rcases order2_fst_mem less data a b s with h1 | h1
    · exact Or.inl h1
    · exact Or.inr (Or.inl h1)
  · rw [h]
    rcases order2_fst_mem less data (order2 less data a b s).2.1 c
        (order2 less data a b s).2.2 with h1 | h1
    · rw [h1]
      rcases order2_snd_mem less data a b s with h2 | h2
      · exact Or.inl h2
      · exact Or.inr (Or.inl h2)
    · exact Or.inr (Or.inr h1)

theorem medianAdjacent_mem (data : Array α) (x s : Nat) :
    (medianAdjacent less data x s).1 = x - 1 ∨ (medianAdjacent less data x s).1 = x ∨
    (medianAdjacent less data x s).1 = x + 1 := by
  rw [medianAdjacent]
  exact median_mem less data (x - 1) x (x + 1) s

theorem choosePivot_mem (data : Array α) (a b : Nat) (h8 : 8 ≤ b - a) :
    a ≤ (choosePivot less data a b).1 ∧ (choosePivot less data a b).1 < b := by
  simp only [choosePivot]
  rw [if_pos (by omega : b - a ≥ 8)]
  by_cases h50 : b - a ≥ 50
  · rw [if_pos h50, mkHint_fst]
    set r1 := medianAdjacent less data (a + (b - a) / 4 * 1) 0 with hr1
    set r2 := medianAdjacent less data (a + (b - a) / 4 * 2) r1.2 with hr2
    set r3 := medianAdjacent less data (a + (b - a) / 4 * 3) r2.2 with hr3
    have h1 := medianAdjacent_mem less data (a + (b - a) / 4 * 1) 0
    have h2 := medianAdjacent_mem less data (a + (b - a) / 4 * 2) r1.2
    have h3 := medianAdjacent_mem less data (a + (b - a) / 4 * 3) r2.2
    rw [← hr1] at h1
    rw [← hr2] at h2
    rw [← hr3] at h3
    rcases median_mem less data r1.1 r2.1 r3.1 r3.2 with hm | hm | hm <;> rw [hm] <;> omega
  · rw [if_neg h50, mkHint_fst]
    rcases median_mem less data (a + (b - a) / 4 * 1) (a + (b - a) / 4 * 2)
        (a + (b - a) / 4 * 3) 0 with hm | hm | hm <;> rw [hm] <;> omega

include hAsym in
/-- Main-partition branch of the `pdqsort` loop, left side shorter: first the
recursive call sorts `[a, mid)`, then the loop continues on `[mid + 1, b)`;
with the pivot value sitting at `mid`, the whole of `[a, b)` comes out sorted. -/
theorem pdqsortBranch_left (go : Array α → Nat → Nat → Nat → Bool → Bool → Array α)
    (fuel' : Nat)
    (hgo : ∀ (d : Array α) (a' b' l' : Nat) (wb' wp' : Bool), b' ≤ d.size →
      b' - a' < fuel' →
      (0 < a' → ∀ m, a' ≤ m → m < b' → less (get d m) (get d (a' - 1)) = false) →
      sortedRange less (go d a' b' l' wb' wp') a' b' ∧
      (∀ m, m < a' ∨ b' ≤ m → get (go d a' b' l' wb' wp') m = get d m))
    (hgoperm : ∀ (d : Array α) (a' b' l' : Nat) (wb' wp' : Bool),
      (go d a' b' l' wb' wp').toList.Perm d.toList)
    (data : Array α) (a b limit pivot : Nat) (wb1 wp1 : Bool)
    (hab : a < b) (hb : b ≤ data.size) (hp1 : a ≤ pivot) (hp2 : pivot < b)
    (hfuel : b - a ≤ fuel')
    (hpred : 0 < a → ∀ m, a ≤ m → m < b → less (get data m) (get data (a - 1)) = false) :
    sortedRange less (go (go (partitionGo less data a b pivot).1 a
        (partitionGo less data a b pivot).2.1 limit true true)
        ((partitionGo less data a b pivot).2.1 + 1) b limit wb1 wp1) a b ∧
    (∀ m, m < a ∨ b ≤ m → get (go (go (partitionGo less data a b pivot).1 a
        (partitionGo less data a b pivot).2.1 limit true true)
        ((partitionGo less data a b pivot).2.1 + 1) b limit wb1 wp1) m = get data m) := by
  obtain ⟨⟨hm1, hm2⟩, hPm, hL, hR, hU⟩ := partitionGo_spec less data a b pivot hab hp1 hp2 hb
  have hpermP := partitionGo_perm less data a b pivot
  have hszP : (partitionGo less data a b pivot).1.size = data.size := size_of_perm hpermP
  have hpredP : 0 < a → ∀ m, a ≤ m → m < b →
      less (get (partitionGo less data a b pivot).1 m)
        (get (partitionGo less data a b pivot).1 (a - 1)) = false := by
    intro ha0
    have ha1 : get (partitionGo less data a b pivot).1 (a - 1) = get data (a - 1) :=
      hU (a - 1) (Or.inl (by omega))
    rw [ha1]
    exact transport_forall_range hpermP hszP hb hU
      (fun x => less x (get data (a - 1)) = false) (hpred ha0)
  obtain ⟨g1s, g1u⟩ := hgo (partitionGo less data a b pivot).1 a
    (partitionGo less data a b pivot).2.1 limit true true (by omega) (by omega)
    (fun ha0 m hmm1 hmm2 => hpredP ha0 m hmm1 (by omega))
  have hperm1 := hgoperm (partitionGo less data a b pivot).1 a
    (partitionGo less data a b pivot).2.1 limit true true
  have hsz1 : (go (partitionGo less data a b pivot).1 a
      (partitionGo less data a b pivot).2.1 limit true true).size = data.size := by
    rw [size_of_perm hperm1, hszP]
  have hPleft : ∀ j, a ≤ j → j < (partitionGo less data a b pivot).2.1 →
      less (get data pivot) (get (go (partitionGo less data a b pivot).1 a
        (partitionGo less data a b pivot).2.1 limit true true) j) = false :=
    transport_forall_range hperm1 (size_of_perm hperm1) (by omega) g1u
      (fun x => less (get data pivot) x = false)
      (fun j hj1 hj2 => hAsym _ _ (hL j hj1 hj2))
  obtain ⟨g2s, g2u⟩ := hgo (go (partitionGo less data a b pivot).1 a
      (partitionGo less data a b pivot).2.1 limit true true)
    ((partitionGo less data a b pivot).2.1 + 1) b limit wb1 wp1 (by omega) (by omega)
    (by
      intro _ m hmm1 hmm2
      simp only [Nat.add_sub_cancel]
      rw [g1u m (by omega), g1u (partitionGo less data a b pivot).2.1 (by omega), hPm]
      exact hR m (by omega) hmm2)
  have hperm2 := hgoperm (go (partitionGo less data a b pivot).1 a
      (partitionGo less data a b pivot).2.1 limit true true)
    ((partitionGo less data a b pivot).2.1 + 1) b limit wb1 wp1
  have hPright : ∀ j, (partitionGo less data a b pivot).2.1 + 1 ≤ j → j < b →
      less (get (go (go (partitionGo less data a b pivot).1 a
        (partitionGo less data a b pivot).2.1 limit true true)
        ((partitionGo less data a b pivot).2.1 + 1) b limit wb1 wp1) j)
        (get data pivot) = false :=
    transport_forall_range hperm2 (size_of_perm hperm2) (by omega) g2u
      (fun x => less x (get data pivot) = false)
      (fun j hj1 hj2 => by
        rw [g1u j (by omega)]
        exact hR j (by omega) hj2)
  constructor
  · intro k hk1 hk2
    by_cases hc1 : k + 1 < (partitionGo less data a b pivot).2.1
    · rw [g2u (k + 1) (by omega), g2u k (by omega)]
      exact g1s k hk1 hc1
    · by_cases hc2 : k + 1 = (partitionGo less data a b pivot).2.1
      · rw [g2u (k + 1) (by omega), g2u k (by omega)]
        have e1 : get (go (partitionGo less data a b pivot).1 a
            (partitionGo less data a b pivot).2.1 limit true true) (k + 1)
            = get data pivot := by
          rw [hc2, g1u (partitionGo less data a b pivot).2.1 (by omega), hPm]
        rw [e1]
        exact hPleft k hk1 (by omega)
      · by_cases hc3 : k = (partitionGo less data a b pivot).2.1
        · have e1 : get (go (go (partitionGo less data a b pivot).1 a
              (partitionGo less data a b pivot).2.1 limit true true)
              ((partitionGo less data a b pivot).2.1 + 1) b limit wb1 wp1) k
              = get data pivot := by
            rw [g2u k (by omega), hc3,
              g1u (partitionGo less data a b pivot).2.1 (by omega), hPm]
          rw [e1]
          exact hPright (k + 1) (by omega) hk2
        · exact g2s k (by omega) hk2
  · intro m hm
    rw [g2u m (by omega), g1u m (by omega), hU m hm]

include hAsym in
/-- Main-partition branch of the `pdqsort` loop, right side not longer: first
the recursive call sorts `[mid + 1, b)`, then the loop continues on `[a, mid)`. -/
theorem pdqsortBranch_right (go : Array α → Nat → Nat → Nat → Bool → Bool → Array α)
    (fuel' : Nat)
    (hgo : ∀ (d : Array α) (a' b' l' : Nat) (wb' wp' : Bool), b' ≤ d.size →
      b' - a' < fuel' →
      (0 < a' → ∀ m, a' ≤ m → m < b' → less (get d m) (get d (a' - 1)) = false) →
      sortedRange less (go d a' b' l' wb' wp') a' b' ∧
      (∀ m, m < a' ∨ b' ≤ m → get (go d a' b' l' wb' wp') m = get d m))
    (hgoperm : ∀ (d : Array α) (a' b' l' : Nat) (wb' wp' : Bool),
      (go d a' b' l' wb' wp').toList.Perm d.toList)
    (data : Array α) (a b limit pivot : Nat) (wb1 wp1 : Bool)
    (hab : a < b) (hb : b ≤ data.size) (hp1 : a ≤ pivot) (hp2 : pivot < b)
    (hfuel : b - a ≤ fuel')
    (hpred : 0 < a → ∀ m, a ≤ m → m < b → less (get data m) (get data (a - 1)) = false) :
    sortedRange less (go (go (partitionGo less data a b pivot).1
        ((partitionGo less data a b pivot).2.1 + 1) b limit true true)
        a (partitionGo less data a b pivot).2.1 limit wb1 wp1) a b ∧
    (∀ m, m < a ∨ b ≤ m → get (go (go (partitionGo less data a b pivot).1
        ((partitionGo less data a b pivot).2.1 + 1) b limit true true)
        a (partitionGo less data a b pivot).2.1 limit wb1 wp1) m = get data m) := by
  obtain ⟨⟨hm1, hm2⟩, hPm, hL, hR, hU⟩ := partitionGo_spec less data a b pivot hab hp1 hp2 hb
  have hpermP := partitionGo_perm less data a b pivot
  have hszP : (partitionGo less data a b pivot).1.size = data.size := size_of_perm hpermP
  have hpredP : 0 < a → ∀ m, a ≤ m → m < b →
      less (get (partitionGo less data a b pivot).1 m)
        (get (partitionGo less data a b pivot).1 (a - 1)) = false := by
    intro ha0
    have ha1 : get (partitionGo less data a b pivot).1 (a - 1) = get data (a - 1) :=
      hU (a - 1) (Or.inl (by omega))
    rw [ha1]
    exact transport_forall_range hpermP hszP hb hU
      (fun x => less x (get data (a - 1)) = false) (hpred ha0)
  obtain ⟨g1s, g1u⟩ := hgo (partitionGo less data a b pivot).1
    ((partitionGo less data a b pivot).2.1 + 1) b limit true true (by omega) (by omega)
    (by
      intro _ m hmm1 hmm2
      simp only [Nat.add_sub_cancel]
      rw [hPm]
      exact hR m (by omega) hmm2)
  have hperm1 := hgoperm (partitionGo less data a b pivot).1
    ((partitionGo less data a b pivot).2.1 + 1) b limit true true
  have hsz1 : (go (partitionGo less data a b pivot).1
      ((partitionGo less data a b pivot).2.1 + 1) b limit true true).size = data.size := by
    rw [size_of_perm hperm1, hszP]
  have hPright : ∀ j, (partitionGo less data a b pivot).2.1 + 1 ≤ j → j < b →
      less (get (go (partitionGo less data a b pivot).1
        ((partitionGo less data a b pivot).2.1 + 1) b limit true true) j)
        (get data pivot) = false :=
    transport_forall_range hperm1 (size_of_perm hperm1) (by omega) g1u
      (fun x => less x (get data pivot) = false)
      (fun j hj1 hj2 => hR j (by omega) hj2)
  obtain ⟨g2s, g2u⟩ := hgo (go (partitionGo less data a b pivot).1
      ((partitionGo less data a b pivot).2.1 + 1) b limit true true)
    a (partitionGo less data a b pivot).2.1 limit wb1 wp1 (by omega) (by omega)
    (by
      intro ha0 m hmm1 hmm2
      rw [g1u m (by omega), g1u (a - 1) (by omega)]
      exact hpredP ha0 m hmm1 (by omega))
  have hperm2 := hgoperm (go (partitionGo less data a b pivot).1
      ((partitionGo less data a b pivot).2.1 + 1) b limit true true)
    a (partitionGo less data a b pivot).2.1 limit wb1 wp1
  have hPleft : ∀ j, a ≤ j → j < (partitionGo less data a b pivot).2.1 →
      less (get data pivot) (get (go (go (partitionGo less data a b pivot).1
        ((partitionGo less data a b pivot).2.1 + 1) b limit true true)
        a (partitionGo less data a b pivot).2.1 limit wb1 wp1) j) = false :=
    transport_forall_range hperm2 (size_of_perm hperm2) (by omega) g2u
      (fun x => less (get data pivot) x = false)
      (fun j hj1 hj2 => by
        rw [g1u j (by omega)]
        exact hAsym _ _ (hL j hj1 hj2))
  constructor
  · intro k hk1 hk2
    by_cases hc1 : k + 1 < (partitionGo less data a b pivot).2.1
    · exact g2s k hk1 hc1
    · by_cases hc2 : k + 1 = (partitionGo less data a b pivot).2.1
      · have e1 : get (go (go (partitionGo less data a b pivot).1
            ((partitionGo less data a b pivot).2.1 + 1) b limit true true)
            a (partitionGo less data a b pivot).2.1 limit wb1 wp1) (k + 1)
            = get data pivot := by
          rw [hc2, g2u (partitionGo less data a b pivot).2.1 (by omega),
            g1u (partitionGo less data a b pivot).2.1 (by omega), hPm]
        rw [e1]
        exact hPleft k hk1 (by omega)
      · by_cases hc3 : k = (partitionGo less data a b pivot).2.1
        · have e1 : get (go (go (partitionGo less data a b pivot).1
              ((partitionGo less data a b pivot).2.1 + 1) b limit true true)
              a (partitionGo less data a b pivot).2.1 limit wb1 wp1) k
              = get data pivot := by
            rw [hc3, g2u (partitionGo less data a b pivot).2.1 (by omega),
              g1u (partitionGo less data a b pivot).2.1 (by omega), hPm]
          rw [e1]
          rw [g2u (k + 1) (by omega)]
          exact hPright (k + 1) (by omega) hk2
        · rw [g2u (k + 1) (by omega), g2u k (by omega)]
          exact g1s k (by omega) hk2
  · intro m hm
    rw [g2u m (by omega), g1u m (by omega), hU m hm]

include hAsym hTransNeg in
/-- The tail of one `pdqsort` loop iteration: assuming the recursive calls
(`go`) sort their range and touch nothing else, the continuation sorts
`[a, b)` and touches nothing else. -/
theorem pdqsortCont_spec (go : Array α → Nat → Nat → Nat → Bool → Bool → Array α)
    (fuel' : Nat)
    (hgo : ∀ (d : Array α) (a' b' l' : Nat) (wb' wp' : Bool), b' ≤ d.size →
      b' - a' < fuel' →
      (0 < a' → ∀ m, a' ≤ m → m < b' → less (get d m) (get d (a' - 1)) = false) →
      sortedRange less (go d a' b' l' wb' wp') a' b' ∧
      (∀ m, m < a' ∨ b' ≤ m → get (go d a' b' l' wb' wp') m = get d m))
    (hgoperm : ∀ (d : Array α) (a' b' l' : Nat) (wb' wp' : Bool),
      (go d a' b' l' wb' wp').toList.Perm d.toList)
    (data : Array α) (a b limit pivot : Nat) (wb wp : Bool)
    (hab : a < b) (hb : b ≤ data.size) (hp1 : a ≤ pivot) (hp2 : pivot < b)
    (hfuel : b - a ≤ fuel')
    (hpred : 0 < a → ∀ m, a ≤ m → m < b → less (get data m) (get data (a - 1)) = false) :
    sortedRange less (pdqsortCont less go a b limit pivot wb wp data) a b ∧
    (∀ m, m < a ∨ b ≤ m →
      get (pdqsortCont less go a b limit pivot wb wp data) m = get data m) := by
  simp only [pdqsortCont]
  split
  · next hcond =>
    obtain ⟨ha0, hnl⟩ := hcond
    have hnl' : less (get data (a - 1)) (get data pivot) = false := by
      cases h : less (get data (a - 1)) (get data pivot)
      · rfl
      · exact absurd h hnl
    have hNS : ∀ k, a ≤ k → k < b → less (get data k) (get data pivot) = false := by
      intro k hk1 hk2
      exact hTransNeg _ _ _ (hpred ha0 k hk1 hk2) hnl'
    obtain ⟨⟨hm1, hm2⟩, hEq1, hEq2, hEqU⟩ :=
      partitionEqual_spec less hAsym data a b pivot hab hp1 hp2 hb hNS
    have hpermE := partitionEqual_perm less data a b pivot
    have hszE : (partitionEqual less data a b pivot).1.size = data.size :=
      size_of_perm hpermE
    have htransNS : ∀ k, a ≤ k → k < b →
        less (get (partitionEqual less data a b pivot).1 k) (get data pivot) = false :=
      transport_forall_range hpermE hszE hb hEqU
        (fun x => less x (get data pivot) = false) hNS
    have hPmid : ∀ m, (partitionEqual less data a b pivot).2 ≤ m → m < b →
        less (get (partitionEqual less data a b pivot).1 m)
          (get (partitionEqual less data a b pivot).1
            ((partitionEqual less data a b pivot).2 - 1)) = false := by
      intro m hm1' hm2'
      exact hTransNeg _ _ _ (hAsym _ _ (hEq2 m hm1' hm2'))
        (hEq1 _ (by omega) (by omega))
    obtain ⟨g1, g2⟩ := hgo (partitionEqual less data a b pivot).1
      (partitionEqual less data a b pivot).2 b limit wb wp (by omega)
      (by omega) (fun _ => hPmid)
    have hgop := hgoperm (partitionEqual less data a b pivot).1
      (partitionEqual less data a b pivot).2 b limit wb wp
    have htransG : ∀ j, (partitionEqual less data a b pivot).2 ≤ j → j < b →
        less (get (go (partitionEqual less data a b pivot).1
            (partitionEqual less data a b pivot).2 b limit wb wp) j)
          (get (partitionEqual less data a b pivot).1
            ((partitionEqual less data a b pivot).2 - 1)) = false :=
      transport_forall_range hgop (size_of_perm hgop) (by omega) g2
        (fun x => less x (get (partitionEqual less data a b pivot).1
          ((partitionEqual less data a b pivot).2 - 1)) = false) hPmid
    constructor
    · intro k hk1 hk2
      by_cases hc1 : k + 1 < (partitionEqual less data a b pivot).2
      · rw [g2 (k + 1) (by omega), g2 k (by omega)]
        exact hTransNeg _ _ _ (htransNS (k + 1) (by omega) (by omega))
          (hEq1 k (by omega) (by omega))
      · by_cases hc2 : k + 1 = (partitionEqual less data a b pivot).2
        · have hmid1 : get (partitionEqual less data a b pivot).1 k =
              get (partitionEqual less data a b pivot).1
                ((partitionEqual less data a b pivot).2 - 1) := by
            congr 1
            omega
          rw [g2 k (by omega), hmid1]
          exact htransG (k + 1) (by omega) (by omega)
        · exact g1 k (by omega) hk2
    · intro m hm
      rw [g2 m (by omega), hEqU m hm]
  · split
    · exact pdqsortBranch_left less hAsym go fuel' hgo hgoperm data a b limit pivot _ _
        hab hb hp1 hp2 hfuel hpred
    · exact pdqsortBranch_right less hAsym go fuel' hgo hgoperm data a b limit pivot _ _
        hab hb hp1 hp2 hfuel hpred

/-- Transport of the predecessor bound (`data[a-1]` weakly below everything
in `[a, b)`) across an operation that permutes the array but leaves
everything outside `[a, b)` untouched. -/
theorem pred_transport {d e : Array α} {a b : Nat}
    (hperm : e.toList.Perm d.toList) (hb : b ≤ d.size)
    (hout : ∀ m, m < a ∨ b ≤ m → get e m = get d m)
    (hpred : 0 < a → ∀ m, a ≤ m → m < b → less (get d m) (get d (a - 1)) = false) :
    0 < a → ∀ m, a ≤ m → m < b → less (get e m) (get e (a - 1)) = false := by
  intro ha0
  have ha1 : get e (a - 1) = get d (a - 1) := hout (a - 1) (Or.inl (by omega))
  rw [ha1]
  exact transport_forall_range hperm (size_of_perm hperm) hb hout
    (fun x => less x (get d (a - 1)) = false) (hpred ha0)

include hAsym hTransNeg in
/-- The `pdqsort` loop sorts `[a, b)` and touches nothing outside it, under
the predecessor bound carried by the recursion (Go `pdqsort_func`). -/
theorem pdqsortLoop_spec :
    ∀ (fuel : Nat) (data : Array α) (a b limit : Nat) (wb wp : Bool),
    b ≤ data.size → b - a < fuel →
    (0 < a → ∀ m, a ≤ m → m < b → less (get data m) (get data (a - 1)) = false) →
    sortedRange less (pdqsortLoop less data a b limit wb wp fuel) a b ∧
    (∀ m, m < a ∨ b ≤ m →
      get (pdqsortLoop less data a b limit wb wp fuel) m = get data m) := by
  intro fuel
  induction fuel with
  | zero => intro data a b limit wb wp hb hfuel hpred; exfalso; omega
  | succ fuel ih =>
    intro data a b limit wb wp hb hfuel hpred
    simp only [pdqsortLoop]
    by_cases h12 : b - a ≤ 12
    · rw [if_pos h12]
      exact ⟨insertionSort_sorts less hAsym data a b hb,
        insertionSort_untouched less data a b⟩
    · rw [if_neg h12]
      by_cases hlim : limit = 0
      · rw [if_pos hlim]
        exact heapSort_spec less hAsym hTransNeg data a b (by omega) hb
      · rw [if_neg hlim]
        set dl := (if wb then (data, limit) else (breakPatterns data a b, limit - 1))
          with hdl
        set ph := choosePivot less dl.1 a b with hph
        set dph := (if ph.2 = Hint.decreasing then
            (reverseRange dl.1 a b, b - 1 - (ph.1 - a), Hint.increasing)
          else (dl.1, ph.1, ph.2)) with hdph
        have hdlperm : dl.1.toList.Perm data.toList := by
          rw [hdl]
          split
          · exact List.Perm.refl _
          · exact breakPatterns_perm data a b
        have hdlu : ∀ m, m < a ∨ b ≤ m → get dl.1 m = get data m := by
          rw [hdl]
          split
          · intro m hm; rfl
          · intro m hm; exact breakPatterns_untouched data a b m hm
        have hszdl : dl.1.size = data.size := size_of_perm hdlperm
        have hpreddl := pred_transport less hdlperm hb hdlu hpred
        have hphmem : a ≤ ph.1 ∧ ph.1 < b := by
          have := choosePivot_mem less dl.1 a b (by omega)
          rw [← hph] at this
          exact this
        have hdphperm : dph.1.toList.Perm dl.1.toList := by
          rw [hdph]
          split
          · exact reverseRange_perm dl.1 a b
          · exact List.Perm.refl _
        have hdphu : ∀ m, m < a ∨ b ≤ m → get dph.1 m = get dl.1 m := by
          rw [hdph]
          split
          · intro m hm; exact reverseRange_untouched dl.1 a b m hm
          · intro m hm; rfl
        have hszdph : dph.1.size = data.size := by
          rw [size_of_perm hdphperm, hszdl]
        have hpreddph := pred_transport less hdphperm (by omega) hdphu hpreddl
        have hdphmem : a ≤ dph.2.1 ∧ dph.2.1 < b := by
          rw [hdph]
          split
          · dsimp only
            omega
          · dsimp only
            exact hphmem
        split
        · obtain ⟨ps, pu⟩ := partInsertionSort_spec less hAsym dph.1 a b (by omega)
            (by omega) hpreddph
          have hprperm := partInsertionSort_perm less dph.1 a b
          have hszpr : (partInsertionSort less dph.1 a b).1.size = data.size := by
            rw [size_of_perm hprperm, hszdph]
          split
          · next hpr =>
            refine ⟨ps hpr, ?_⟩
            intro m hm
            rw [pu m hm, hdphu m hm, hdlu m hm]
          · have hpredpr := pred_transport less hprperm (by omega) pu hpreddph
            obtain ⟨cs, cu⟩ := pdqsortCont_spec less hAsym hTransNeg
              (fun d a' b' l' wb' wp' => pdqsortLoop less d a' b' l' wb' wp' fuel) fuel
              (fun d a' b' l' wb' wp' hb' hf' hp' => ih d a' b' l' wb' wp' hb' hf' hp')
              (fun d a' b' l' wb' wp' => pdqsortLoop_perm less d a' b' l' wb' wp' fuel)
              (partInsertionSort less dph.1 a b).1 a b dl.2 dph.2.1 wb wp (by omega)
              (by omega) hdphmem.1 hdphmem.2 (by omega) hpredpr
            refine ⟨cs, ?_⟩
            intro m hm
            rw [cu m hm, pu m hm, hdphu m hm, hdlu m hm]
        · obtain ⟨cs, cu⟩ := pdqsortCont_spec less hAsym hTransNeg
            (fun d a' b' l' wb' wp' => pdqsortLoop less d a' b' l' wb' wp' fuel) fuel
            (fun d a' b' l' wb' wp' hb' hf' hp' => ih d a' b' l' wb' wp' hb' hf' hp')
            (fun d a' b' l' wb' wp' => pdqsortLoop_perm less d a' b' l' wb' wp' fuel)
            dph.1 a b dl.2 dph.2.1 wb wp (by omega) (by omega) hdphmem.1 hdphmem.2
            (by omega) hpreddph
          refine ⟨cs, ?_⟩
          intro m hm
          rw [cu m hm, hdphu m hm, hdlu m hm]

theorem insertionInner_id (data : Array α) (a j : Nat)
    (h : less (get data j) (get data (j - 1)) = false) :
    insertionInner less data a j = data := by
  cases j with
  | zero => rfl
  | succ j' =>
    have h' : less (get data (j' + 1)) (get data j') = false := h
    rw [insertionInner, if_neg]
    rintro ⟨h1, h2⟩
    exact absurd h2 (by simp [h'])

theorem insertionOuter_id (a b : Nat) :
    ∀ (fuel : Nat) (data : Array α) (i : Nat), a + 1 ≤ i →
    sortedRange less data a b →
    insertionOuter less data a i b fuel = data := by
  intro fuel
  induction fuel with
  | zero => intro data i hi hs; rfl
  | succ fuel ih =>
    intro data i hi hs
    rw [insertionOuter]
    split
    · next hib =>
      have hsi := hs (i - 1) (by omega) (by omega)
      have he : i - 1 + 1 = i := by omega
      rw [he] at hsi
      rw [insertionInner_id less data a i hsi]
      exact ih data (i + 1) (by omega) hs
    · rfl

theorem insertionSort_id (data : Array α) (a b : Nat) (hs : sortedRange less data a b) :
    insertionSort less data a b = data :=
  insertionOuter_id less a b (b + 1) data (a + 1) le_rfl hs

theorem scanSorted_reaches (a b : Nat) :
    ∀ (fuel i : Nat) (data : Array α), a + 1 ≤ i → i ≤ b → b ≤ i + fuel →
    sortedRange less data a b →
    scanSorted less data i b fuel = b := by
  intro fuel
  induction fuel with
  | zero =>
    intro i data h1 h2 h3 hs
    rw [scanSorted]
    omega
  | succ fuel ih =>
    intro i data h1 h2 h3 hs
    rw [scanSorted]
    by_cases hib : i < b
    · have hsi := hs (i - 1) (by omega) (by omega)
      have he : i - 1 + 1 = i := by omega
      rw [he] at hsi
      rw [if_pos ⟨hib, by simp [hsi]⟩]
      exact ih (i + 1) data (by omega) (by omega) (by omega) hs
    · rw [if_neg (fun hc => hib hc.1)]
      omega

theorem partInsLoop_of_sorted (data : Array α) (a b i steps' : Nat) (h1 : a + 1 ≤ i)
    (h2 : i ≤ b) (hs : sortedRange less data a b) :
    partInsLoop less data a b i (steps' + 1) = (data, true) := by
  simp only [partInsLoop]
  rw [scanSorted_reaches less a b (b + 1) i data h1 h2 (by omega) hs, if_pos rfl]

theorem partInsertionSort_of_sorted (data : Array α) (a b : Nat) (hab : a < b)
    (hs : sortedRange less data a b) :
    partInsertionSort less data a b = (data, true) := by
  rw [partInsertionSort]
  exact partInsLoop_of_sorted less data a b (a + 1) 4 le_rfl (by omega) hs

theorem order2_of_sorted (data : Array α) (x y s : Nat)
    (h : less (get data y) (get data x) = false) :
    order2 less data x y s = (x, y, s) := by
  rw [order2, if_neg (by simp [h])]

theorem median_of_sorted (data : Array α) (x y z s : Nat)
    (hxy : less (get data y) (get data x) = false)
    (hyz : less (get data z) (get data y) = false)
    (_hxz : less (get data z) (get data x) = false) :
    median less data x y z s = (y, s) := by
  simp only [median]
  rw [order2_of_sorted less data x y s hxy]
  dsimp only
  rw [order2_of_sorted less data y z s hyz]
  dsimp only
  rw [order2_of_sorted less data x y s hxy]

theorem medianAdjacent_of_sorted (data : Array α) (x s : Nat)
    (h1 : less (get data x) (get data (x - 1)) = false)
    (h2 : less (get data (x + 1)) (get data x) = false)
    (h3 : less (get data (x + 1)) (get data (x - 1)) = false) :
    medianAdjacent less data x s = (x, s) := by
  rw [medianAdjacent]
  exact median_of_sorted less data (x - 1) x (x + 1) s h1 h2 h3

include hAsym hTransNeg in
/-- On an already-sorted range the pivot selection performs no comparison
swaps, so the hint is `increasing`. -/
theorem choosePivot_of_sorted (data : Array α) (a b : Nat) (h8 : 8 ≤ b - a)
    (hs : sortedRange less data a b) :
    (choosePivot less data a b).2 = Hint.increasing := by
  have hpw := sortedRange_pairwise less hAsym hTransNeg hs
  simp only [choosePivot]
  rw [if_pos (by omega : b - a ≥ 8)]
  by_cases h50 : b - a ≥ 50
  · rw [if_pos h50]
    rw [medianAdjacent_of_sorted less data (a + (b - a) / 4 * 1) 0
      (hpw _ _ (by omega) (by omega) (by omega))
      (hpw _ _ (by omega) (by omega) (by omega))
      (hpw _ _ (by omega) (by omega) (by omega))]
    dsimp only
    rw [medianAdjacent_of_sorted less data (a + (b - a) / 4 * 2) 0
      (hpw _ _ (by omega) (by omega) (by omega))
      (hpw _ _ (by omega) (by omega) (by omega))
      (hpw _ _ (by omega) (by omega) (by omega))]
    dsimp only
    rw [medianAdjacent_of_sorted less data (a + (b - a) / 4 * 3) 0
      (hpw _ _ (by omega) (by omega) (by omega))
      (hpw _ _ (by omega) (by omega) (by omega))
      (hpw _ _ (by omega) (by omega) (by omega))]
    dsimp only
    rw [median_of_sorted less data (a + (b - a) / 4 * 1) (a + (b - a) / 4 * 2)
      (a + (b - a) / 4 * 3) 0
      (hpw _ _ (by omega) (by omega) (by omega))
      (hpw _ _ (by omega) (by omega) (by omega))
      (hpw _ _ (by omega) (by omega) (by omega))]
    rw [mkHint, if_pos rfl]
  · rw [if_neg h50]
    rw [median_of_sorted less data (a + (b - a) / 4 * 1) (a + (b - a) / 4 * 2)
      (a + (b - a) / 4 * 3) 0
      (hpw _ _ (by omega) (by omega) (by omega))
      (hpw _ _ (by omega) (by omega) (by omega))
      (hpw _ _ (by omega) (by omega) (by omega))]
    rw [mkHint, if_pos rfl]

include hAsym hTransNeg in
/-- On an already-sorted range, one iteration of the `pdqsort` loop (entered
with `wasBalanced = wasPartitioned = true`) exits through the
`partialInsertionSort` early-out without modifying the array. -/
theorem pdqsortLoop_id_of_sorted (data : Array α) (a b limit fuel' : Nat)
    (hs : sortedRange less data a b)
    (hlim : limit ≠ 0 ∨ b - a ≤ 12) :
    pdqsortLoop less data a b limit true true (fuel' + 1) = data := by
  simp only [pdqsortLoop]
  by_cases h12 : b - a ≤ 12
  · rw [if_pos h12]
    exact insertionSort_id less data a b hs
  · rw [if_neg h12]
    have hlim0 : limit ≠ 0 := by
      rcases hlim with h | h
      · exact h
      · omega
    rw [if_neg hlim0]
    rw [if_pos trivial]
    dsimp only
    rw [choosePivot_of_sorted less hAsym hTransNeg data a b (by omega) hs]
    rw [if_neg (by decide : ¬(Hint.increasing = Hint.decreasing))]
    dsimp only
    rw [if_pos (show True ∧ True ∧ Hint.increasing = Hint.increasing from
      ⟨trivial, trivial, rfl⟩)]
    rw [partInsertionSort_of_sorted less data a b (by omega) hs]
    dsimp only
    rw [if_pos (rfl : (true : Bool) = true)]

include hAsym hTransNeg in
theorem pdqsort_id_of_sorted (data : Array α) (a b limit : Nat)
    (hs : sortedRange less data a b) (hlim : limit ≠ 0 ∨ b - a ≤ 12) :
    pdqsort less data a b limit = data := by
  rw [pdqsort]
  exact pdqsortLoop_id_of_sorted less hAsym hTransNeg data a b limit (b - a) hs hlim

theorem goBitsLen_ne_zero (n : Nat) (h : 1 ≤ n) : goBitsLen n ≠ 0 := by
  obtain ⟨n', rfl⟩ : ∃ n', n = n' + 1 := ⟨n - 1, by omega⟩
  rw [goBitsLen, bitsLenAux_succ]
  omega

include hAsym hTransNeg in
/-- `sort.Slice` leaves an already-sorted slice unchanged. -/
theorem sortSlice_id_of_sorted (data : Array α)
    (hs : sortedRange less data 0 data.size) :
    sortSlice less data = data := by
  rw [sortSlice]
  by_cases h12 : data.size ≤ 12
  · exact pdqsort_id_of_sorted less hAsym hTransNeg data 0 data.size _ hs (Or.inr (by omega))
  · exact pdqsort_id_of_sorted less hAsym hTransNeg data 0 data.size _ hs
      (Or.inl (goBitsLen_ne_zero data.size (by omega)))

include hAsym hTransNeg in
/-- `sort.Slice` sorts: the result is sorted over its whole index range. -/
theorem sortSlice_sorted (data : Array α) :
    sortedRange less (sortSlice less data) 0 data.size := by
  rw [sortSlice, pdqsort]
  exact (pdqsortLoop_spec less hAsym hTransNeg (data.size - 0 + 1) data 0 data.size
    (goBitsLen data.size) true true le_rfl (by omega)
    (fun h => absurd h (lt_irrefl 0))).1

include hAsym hTransNeg in
/-- Sorting twice equals sorting once: for a strict-weak-order comparator,
`sort.Slice` is idempotent. -/
theorem sortSlice_idem (data : Array α) :
    sortSlice less (sortSlice less data) = sortSlice less data := by
  apply sortSlice_id_of_sorted less hAsym hTransNeg
  have h := sortSlice_sorted less hAsym hTransNeg data
  have hsz : (sortSlice less data).size = data.size :=
    size_of_perm (sortSlice_perm less data)
  rw [hsz]
  exact h

/-! ### The comparator of `Report.Print` is a strict weak order -/

theorem charListLt_asym : ∀ (x y : List Char),
    charListLt x y = true → charListLt y x = false := by
  intro x
  induction x with
  | nil =>
    intro y h
    cases y with
    | nil => exact absurd h (by rw [charListLt]; simp)
    | cons b bs => rw [charListLt]
  | cons a as ih =>
    intro y h
    cases y with
    | nil => exact absurd h (by rw [charListLt]; simp)
    | cons b bs =>
      rw [charListLt] at h ⊢
      by_cases h1 : a.toNat < b.toNat
      · rw [if_neg (by omega), if_pos h1]
      · by_cases h2 : b.toNat < a.toNat
        · rw [if_neg h1, if_pos h2] at h
          exact absurd h (by simp)
        · rw [if_neg h1, if_neg h2] at h
          rw [if_neg h2, if_neg h1]
          exact ih bs h

theorem charListLt_transNeg : ∀ (x y z : List Char),
    charListLt x y = false → charListLt y z = false → charListLt x z = false := by
  intro x
  induction x with
  | nil =>
    intro y z h1 h2
    cases y with
    | nil =>
      cases z with
      | nil => rw [charListLt]
      | cons c cs => exact h2
    | cons b bs => exact absurd h1 (by rw [charListLt]; simp)
  | cons a as ih =>
    intro y z h1 h2
    cases y with
    | nil =>
      cases z with
      | nil => rw [charListLt]
      | cons c cs => exact absurd h2 (by rw [charListLt]; simp)
    | cons b bs =>
      cases z with
      | nil => rw [charListLt]
      | cons c cs =>
        rw [charListLt] at h1 h2 ⊢
        by_cases hab1 : a.toNat < b.toNat
        · rw [if_pos hab1] at h1
          exact absurd h1 (by simp)
        · by_cases hbc1 : b.toNat < c.toNat
          · rw [if_pos hbc1] at h2
            exact absurd h2 (by simp)
          · rw [if_neg (by omega : ¬ a.toNat < c.toNat)]
            by_cases hca : c.toNat < a.toNat
            · rw [if_pos hca]
            · rw [if_neg hab1, if_neg (by omega : ¬ b.toNat < a.toNat)] at h1
              rw [if_neg hbc1, if_neg (by omega : ¬ c.toNat < b.toNat)] at h2
              rw [if_neg hca]
              exact ih bs cs h1 h2

theorem rowLess_asym : ∀ (x y : List String),
    rowLess x y = true → rowLess y x = false := by
  intro x y h
  simp only [rowLess, goStringGt, goStringLt] at h ⊢
  exact charListLt_asym _ _ h

theorem rowLess_transNeg : ∀ (x y z : List String),
    rowLess x y = false → rowLess y z = false → rowLess x z = false := by
  intro x y z h1 h2
  simp only [rowLess, goStringGt, goStringLt] at h1 h2 ⊢
  exact charListLt_transNeg _ _ _ h2 h1

/-- **C4.** Rendering the same `ReportSummary` twice produces byte-identical
output: the second `Print` (on the report as mutated by the first) writes
exactly the bytes of the first, because the header lines depend only on
fields `Print` never changes and `sort.Slice` is idempotent — re-sorting the
already-sorted row sequence reproduces it (the comparator is a strict weak
order, so a sorted permutation is a fixed point of the sort). -/
theorem print_twice_byte_identical (r : Report) :
    ((r.Print).2.Print).1 = (r.Print).1 := by
  simp only [Report.Print]
  rw [Array.toArray_toList, GoSort.sortSlice_idem rowLess rowLess_asym rowLess_transNeg]
